import Mathlib

/-!
# Verification of the `quadtree` crate's quadtree core

A shallow embedding of the quadtree data structure and its algorithms,
translated from the Rust sources:

* `src/geom/math.rs`         : `pt_in_rect`, `rect_in_rect`
* `src/node.rs`              : `find_sub_node`, `subdivide` (trait `Node`)
* `src/quadtrees/point/*.rs` : the point-variant node and tree
* `src/quadtrees/bounds/*.rs`: the bounds-variant node and tree
* `src/quadtrees/knn.rs`     : the shared `knn` work-stack search
* `src/geom/euclidean/mod.rs`: `Euclidean::dist_bounds_bounds`
* `src/geom/spherical/math.rs`: haversine point/segment/rect distances

Modelling conventions: the scalar type `T` of the trees (a float in Rust)
is modelled as `ℚ`, which carries the ordered-field operations the tree
code actually uses (comparisons, midpoints).  The purely real-analytic
distance formulas of the `geom` module are modelled over `ℝ`.  Stateful
`&mut self` methods become functions returning the updated value,
`Result<T, Error>` becomes `Except Error`, and generic trait parameters
(`D: AsPoint`, `D: Datum`, `X: Distance`) become explicit function
parameters.
-/

namespace Quadtree

/-- A coordinate pair, `geo::Coord<T>` with `T` modelled as `ℚ`. -/
structure QPoint where
  x : ℚ
  y : ℚ
deriving DecidableEq, Repr

/-- An axis-aligned rectangle, `geo::Rect<T>`: stores its min and max
corners.  `geo::Rect` maintains `min ≤ max` by normalising in `Rect::new`;
see `mkRect`. -/
structure QRect where
  minX : ℚ
  minY : ℚ
  maxX : ℚ
  maxY : ℚ
deriving DecidableEq, Repr

/-- `geo::Rect::new`: normalises the two given corners into min/max form. -/
def mkRect (c1 c2 : QPoint) : QRect :=
  ⟨min c1.x c2.x, min c1.y c2.y, max c1.x c2.x, max c1.y c2.y⟩

/-- `geo::Rect::width`. -/
def QRect.width (r : QRect) : ℚ := r.maxX - r.minX

/-- `geo::Rect::height`. -/
def QRect.height (r : QRect) : ℚ := r.maxY - r.minY

/-- `r.min() ≤ r.max()`, the invariant `geo::Rect` maintains by
construction. -/
def ValidRect (r : QRect) : Prop := r.minX ≤ r.maxX ∧ r.minY ≤ r.maxY

instance (r : QRect) : Decidable (ValidRect r) := by
  unfold ValidRect; infer_instance

/-- `pt_in_rect` from `src/geom/math.rs`: boundary-inclusive point
containment (`x >= x1 && x <= x2 && y >= y1 && y <= y2`). -/
def pt_in_rect (r : QRect) (p : QPoint) : Prop :=
  r.minX ≤ p.x ∧ p.x ≤ r.maxX ∧ r.minY ≤ p.y ∧ p.y ≤ r.maxY

instance (r : QRect) (p : QPoint) : Decidable (pt_in_rect r p) := by
  unfold pt_in_rect; infer_instance

/-- `rect_in_rect` from `src/geom/math.rs`: boundary-inclusive
containment of `r2` in `r1`. -/
def rect_in_rect (r1 r2 : QRect) : Prop :=
  r1.minX ≤ r2.minX ∧ r2.maxX ≤ r1.maxX ∧ r1.minY ≤ r2.minY ∧ r2.maxY ≤ r1.maxY

instance (r1 r2 : QRect) : Decidable (rect_in_rect r1 r2) := by
  unfold rect_in_rect; infer_instance

/-- `geo`'s boundary-inclusive `Rect`-`Rect` `Intersects`, used by
`BoundsNode::retrieve`. -/
def rects_intersect (r1 r2 : QRect) : Prop :=
  r1.minX ≤ r2.maxX ∧ r2.minX ≤ r1.maxX ∧ r1.minY ≤ r2.maxY ∧ r2.minY ≤ r1.maxY

instance (r1 r2 : QRect) : Decidable (rects_intersect r1 r2) := by
  unfold rects_intersect; infer_instance

/-- Sub-node indices from `src/node.rs`, clockwise with a top-left
origin: `[TL, TR, BR, BL]`. -/
inductive SubNode where
  | topLeft
  | topRight
  | bottomRight
  | bottomLeft
deriving DecidableEq, Repr

/-- The quadrant-classification of `Node::find_sub_node`
(`src/node.rs`): `left = x ≤ mx`, `top = y ≤ my` with ties resolving to
top/left. -/
def find_sub_node_idx (b : QRect) (p : QPoint) : SubNode :=
  let mx := b.minX + b.width / 2
  let my := b.minY + b.height / 2
  if p.x ≤ mx then
    (if p.y ≤ my then .topLeft else .bottomLeft)
  else
    (if p.y ≤ my then .topRight else .bottomRight)

/-- The four sub-rectangles allocated by `Node::subdivide`
(`src/node.rs`), in the fixed order TL, TR, BR, BL, each built with
`Rect::new` (hence normalised by `mkRect`). -/
def quadrantRect (b : QRect) : SubNode → QRect :=
  let x1 := b.minX
  let y1 := b.minY
  let x2 := b.minX + b.width / 2
  let y2 := b.minY + b.height / 2
  let x3 := b.maxX
  let y3 := b.maxY
  fun sn => match sn with
  | .topLeft => mkRect ⟨x1, y1⟩ ⟨x2, y2⟩
  | .topRight => mkRect ⟨x2, y1⟩ ⟨x3, y2⟩
  | .bottomRight => mkRect ⟨x2, y2⟩ ⟨x3, y3⟩
  | .bottomLeft => mkRect ⟨x1, y2⟩ ⟨x2, y3⟩

/-- The public error enumeration from `src/error.rs`. -/
inductive Error where
  | OutOfBounds
  | CannotMakeBbox
  | CannotFindSubNode
  | NoneInRadius
  | InvalidDistance
  | Empty
  | CannotCastInfinity
  | CalcMethodNotSet
  | UnsupportedGeometry
deriving DecidableEq, Repr

/-!
## The point-variant node (`src/quadtrees/point/node.rs`)

`PointNode` has `bounds`, `depth`, `max_depth`, `max_children`, a
`children` vector and an optional boxed array of four sub-nodes.  The
option-of-four-sub-nodes is encoded by the two constructors `leaf`
(`nodes = None`) and `split` (`nodes = Some`), keeping the four
sub-nodes in the fixed TL, TR, BR, BL order.  The `AsPoint` bound on the
datum type is the explicit parameter `asPoint`.
-/

inductive PNode (D : Type) : Type where
  | leaf (bounds : QRect) (depth maxDepth maxChildren : Nat) (children : List D)
  | split (bounds : QRect) (depth maxDepth maxChildren : Nat) (children : List D)
      (tl tr br bl : PNode D)
deriving Repr, DecidableEq

namespace PNode

variable {D : Type}

def bounds : PNode D → QRect
  | .leaf b _ _ _ _ => b
  | .split b _ _ _ _ _ _ _ _ => b

def depth : PNode D → Nat
  | .leaf _ dep _ _ _ => dep
  | .split _ dep _ _ _ _ _ _ _ => dep

def maxDepth : PNode D → Nat
  | .leaf _ _ md _ _ => md
  | .split _ _ md _ _ _ _ _ _ => md

def maxChildren : PNode D → Nat
  | .leaf _ _ _ mc _ => mc
  | .split _ _ _ mc _ _ _ _ _ => mc

/-- The `children` vector (for the point variant `Node::children` simply
iterates this field). -/
def childrenList : PNode D → List D
  | .leaf _ _ _ _ cs => cs
  | .split _ _ _ _ cs _ _ _ _ => cs

/-- `Node::descendants`: the node's own children first, then the
sub-nodes in index order. -/
def data : PNode D → List D
  | .leaf _ _ _ _ cs => cs
  | .split _ _ _ _ cs tl tr br bl => cs ++ (tl.data ++ (tr.data ++ (br.data ++ bl.data)))

/-- Number of nodes in the subtree. -/
def count : PNode D → Nat
  | .leaf _ _ _ _ _ => 1
  | .split _ _ _ _ _ tl tr br bl => 1 + (tl.count + tr.count + br.count + bl.count)

end PNode

section PointVariant

variable {D : Type} (asPoint : D → QPoint)

/-- `PointNode::datum_position`: always `Some(datum.as_point())`. -/
def pDatumPosition (d : D) : Option QPoint := some (asPoint d)

/-- `Node::find_sub_node` for the point variant: classify the datum
position against the bounds midpoint; `None` only if the position is
unavailable. -/
def pFindSubNode (b : QRect) (d : D) : Option SubNode :=
  (pDatumPosition asPoint d).map (find_sub_node_idx b)

/-- The subdivide-and-reinsert step of `PointNode::insert`.

In the source, an overflowing leaf calls `subdivide` and then re-inserts
each existing child plus the new datum through `self.insert`, each of
which descends into the quadrant selected by `find_sub_node`.  Because
the quadrant of a datum depends only on the (fixed) bounds, this
incremental loop is equivalent to distributing the whole list into the
four quadrants at once and recursing per quadrant; `budget` is the
remaining depth allowance `max_depth - depth`, which bounds the
subdivision cascade (`depth < max_depth` ↔ `budget > 0`). -/
def pDistribute : Nat → QRect → Nat → Nat → Nat → List D → PNode D
  | 0, b, dep, maxD, maxC, L => .leaf b dep maxD maxC L
  | budget + 1, b, dep, maxD, maxC, L =>
    if L.length ≤ maxC then .leaf b dep maxD maxC L
    else
      .split b dep maxD maxC []
        (pDistribute budget (quadrantRect b .topLeft) (dep + 1) maxD maxC
          (L.filter fun d => find_sub_node_idx b (asPoint d) == SubNode.topLeft))
        (pDistribute budget (quadrantRect b .topRight) (dep + 1) maxD maxC
          (L.filter fun d => find_sub_node_idx b (asPoint d) == SubNode.topRight))
        (pDistribute budget (quadrantRect b .bottomRight) (dep + 1) maxD maxC
          (L.filter fun d => find_sub_node_idx b (asPoint d) == SubNode.bottomRight))
        (pDistribute budget (quadrantRect b .bottomLeft) (dep + 1) maxD maxC
          (L.filter fun d => find_sub_node_idx b (asPoint d) == SubNode.bottomLeft))

/-- `PointNode::insert` (`src/quadtrees/point/node.rs`).

* With sub-nodes present, delegate to the sub-node chosen by
  `find_sub_node` (erroring with `CannotFindSubNode` if it returns
  `None`).
* Without sub-nodes, if `children.len() >= max_children` and
  `depth < max_depth`, subdivide and re-insert everything
  (`pDistribute`); otherwise push the datum. -/
def PNode.insert : PNode D → D → Except Error (PNode D)
  | .leaf b dep maxD maxC cs, d =>
    if maxC ≤ cs.length ∧ dep < maxD then
      .ok (pDistribute asPoint (maxD - dep) b dep maxD maxC (cs ++ [d]))
    else
      .ok (.leaf b dep maxD maxC (cs ++ [d]))
  | .split b dep maxD maxC cs tl tr br bl, d =>
    match pFindSubNode asPoint b d with
    | none => .error .CannotFindSubNode
    | some .topLeft => (tl.insert d).map fun n => .split b dep maxD maxC cs n tr br bl
    | some .topRight => (tr.insert d).map fun n => .split b dep maxD maxC cs tl n br bl
    | some .bottomRight => (br.insert d).map fun n => .split b dep maxD maxC cs tl tr n bl
    | some .bottomLeft => (bl.insert d).map fun n => .split b dep maxD maxC cs tl tr br n

/-- `PointNode::retrieve`: recurse into the selected sub-node; at a
leaf, return the children; empty if no sub-node can be selected. -/
def PNode.retrieve : PNode D → D → List D
  | .leaf _ _ _ _ cs, _ => cs
  | .split b _ _ _ _ tl tr br bl, d =>
    match pFindSubNode asPoint b d with
    | none => []
    | some .topLeft => tl.retrieve d
    | some .topRight => tr.retrieve d
    | some .bottomRight => br.retrieve d
    | some .bottomLeft => bl.retrieve d

/-- `PointQuadTree` (`src/quadtrees/point/mod.rs`): root node plus a
running size counter.  The `calc_method` field only routes distance
calls and is irrelevant here because distance functions are passed
explicitly. -/
structure PTree (D : Type) where
  root : PNode D
  size : Nat

/-- `PointQuadTree::new`: a fresh leaf root at depth 0, size 0. -/
def PTree.new (b : QRect) (maxD maxC : Nat) : PTree D :=
  ⟨.leaf b 0 maxD maxC [], 0⟩

/-- `PointQuadTree::insert`: bounds-check with `pt_in_rect` (rejecting
with `OutOfBounds`), then insert into the root and increment `size`.
The inner `error` branch cannot in fact occur (`pFindSubNode` always
returns `some`, proved below); the Rust code would keep the partially
updated root there, and the returned pair mirrors `&mut self` plus the
`Result`. -/
def PTree.insert (t : PTree D) (d : D) : PTree D × Option Error :=
  if pt_in_rect t.root.bounds (asPoint d) then
    match t.root.insert asPoint d with
    | .ok r => (⟨r, t.size + 1⟩, none)
    | .error e => (t, some e)
  else
    (t, some .OutOfBounds)

/-- `PointQuadTree::retrieve`: empty if the query point is out of
bounds, otherwise delegate to the root. -/
def PTree.retrieve (t : PTree D) (d : D) : List D :=
  if pt_in_rect t.root.bounds (asPoint d) then t.root.retrieve asPoint d
  else []

end PointVariant

/-!
## The bounds-variant node (`src/quadtrees/bounds/node.rs`)

`BoundsNode` additionally keeps a `stuck_children` vector for data whose
bbox straddles sub-node boundaries.  The `Datum` trait bound (through
`geometry().bounding_rect()`) is the explicit parameter `bboxOf`,
returning `none` exactly when the geometry has no bounding box.
-/

inductive BNode (D : Type) : Type where
  | leaf (bounds : QRect) (depth maxDepth maxChildren : Nat) (children stuck : List D)
  | split (bounds : QRect) (depth maxDepth maxChildren : Nat) (children stuck : List D)
      (tl tr br bl : BNode D)
deriving Repr, DecidableEq

namespace BNode

variable {D : Type}

def bounds : BNode D → QRect
  | .leaf b _ _ _ _ _ => b
  | .split b _ _ _ _ _ _ _ _ _ => b

def depth : BNode D → Nat
  | .leaf _ dep _ _ _ _ => dep
  | .split _ dep _ _ _ _ _ _ _ _ => dep

def maxDepth : BNode D → Nat
  | .leaf _ _ md _ _ _ => md
  | .split _ _ md _ _ _ _ _ _ _ => md

def maxChildren : BNode D → Nat
  | .leaf _ _ _ mc _ _ => mc
  | .split _ _ _ mc _ _ _ _ _ _ => mc

def children : BNode D → List D
  | .leaf _ _ _ _ cs _ => cs
  | .split _ _ _ _ cs _ _ _ _ _ => cs

def stuck : BNode D → List D
  | .leaf _ _ _ _ _ st => st
  | .split _ _ _ _ _ st _ _ _ _ => st

/-- `BoundsNode::children`: the direct children chained with the stuck
children (in that order). -/
def childrenList (n : BNode D) : List D := n.children ++ n.stuck

/-- `Node::descendants` for the bounds variant: own children (direct
then stuck) first, then the sub-nodes in index order. -/
def data : BNode D → List D
  | .leaf _ _ _ _ cs st => cs ++ st
  | .split _ _ _ _ cs st tl tr br bl =>
    (cs ++ st) ++ (tl.data ++ (tr.data ++ (br.data ++ bl.data)))

/-- Number of nodes in the subtree. -/
def count : BNode D → Nat
  | .leaf _ _ _ _ _ _ => 1
  | .split _ _ _ _ _ _ tl tr br bl => 1 + (tl.count + tr.count + br.count + bl.count)

end BNode

section BoundsVariant

variable {D : Type} (bboxOf : D → Option QRect)

/-- `BoundsNode::datum_position`: the center of the datum's bbox
(`min + width/2`, `min + height/2`), or `None` if no bbox exists. -/
def bDatumPosition (d : D) : Option QPoint :=
  (bboxOf d).map fun bb => ⟨bb.minX + bb.width / 2, bb.minY + bb.height / 2⟩

/-- `Node::find_sub_node` for the bounds variant. -/
def bFindSubNode (b : QRect) (d : D) : Option SubNode :=
  (bDatumPosition bboxOf d).map (find_sub_node_idx b)

/-- During redistribution, where a datum would land relative to a node
with bounds `b` that has just subdivided: `some sn` if the quadrant `sn`
chosen by `find_sub_node` fully contains the datum's bbox (so the datum
descends), `none` if the datum is stuck at this node or has no bbox. -/
def bAssign (b : QRect) (d : D) : Option SubNode :=
  match bboxOf d with
  | none => none
  | some bb =>
    match bFindSubNode bboxOf b d with
    | none => none
    | some sn => if rect_in_rect (quadrantRect b sn) bb then some sn else none

/-- The subdivide-and-reinsert step of `BoundsNode::insert`.

As in the point variant (`pDistribute`), the incremental re-insert loop
of the source is equivalent to a batch distribution because every
datum's target quadrant and stuck-status depend only on the fixed
bounds, with arrival order preserved inside each quadrant and inside the
stuck list.  The loop re-computes each datum's bbox and fails with
`CannotMakeBbox` if any is missing (in which case the `Except` result
discards the partially rebuilt node, matching the `?`-propagation of the
source up to the mutated-in-place state that an `Except` cannot carry).
`stuck0` is the node's pre-existing `stuck_children`, which `subdivide`
leaves in place. -/
def bDistribute : Nat → QRect → Nat → Nat → Nat → List D → List D → Except Error (BNode D)
  | 0, b, dep, maxD, maxC, stuck0, L => .ok (.leaf b dep maxD maxC L stuck0)
  | budget + 1, b, dep, maxD, maxC, stuck0, L =>
    if L.length ≤ maxC then .ok (.leaf b dep maxD maxC L stuck0)
    else if L.all (fun d => (bboxOf d).isSome) then do
      let tl ← bDistribute budget (quadrantRect b .topLeft) (dep + 1) maxD maxC []
        (L.filter fun d => bAssign bboxOf b d == some SubNode.topLeft)
      let tr ← bDistribute budget (quadrantRect b .topRight) (dep + 1) maxD maxC []
        (L.filter fun d => bAssign bboxOf b d == some SubNode.topRight)
      let br ← bDistribute budget (quadrantRect b .bottomRight) (dep + 1) maxD maxC []
        (L.filter fun d => bAssign bboxOf b d == some SubNode.bottomRight)
      let bl ← bDistribute budget (quadrantRect b .bottomLeft) (dep + 1) maxD maxC []
        (L.filter fun d => bAssign bboxOf b d == some SubNode.bottomLeft)
      .ok (.split b dep maxD maxC []
        (stuck0 ++ L.filter fun d => bAssign bboxOf b d == none) tl tr br bl)
    else .error .CannotMakeBbox

/-- `BoundsNode::insert` (`src/quadtrees/bounds/node.rs`).

* With sub-nodes present: compute the datum's bbox (`CannotMakeBbox` on
  failure) and the chosen sub-node (`CannotFindSubNode` on failure); if
  the stored sub-node's bounds fully contain the bbox, recurse into it,
  otherwise push the datum onto this node's `stuck_children`.
* Without sub-nodes: subdivide on overflow below the depth cap,
  otherwise push. -/
def BNode.insert : BNode D → D → Except Error (BNode D)
  | .leaf b dep maxD maxC cs st, d =>
    if maxC ≤ cs.length ∧ dep < maxD then
      bDistribute bboxOf (maxD - dep) b dep maxD maxC st (cs ++ [d])
    else
      .ok (.leaf b dep maxD maxC (cs ++ [d]) st)
  | .split b dep maxD maxC cs st tl tr br bl, d =>
    match bboxOf d with
    | none => .error .CannotMakeBbox
    | some bb =>
      match bFindSubNode bboxOf b d with
      | none => .error .CannotFindSubNode
      | some .topLeft =>
        if rect_in_rect tl.bounds bb then
          (tl.insert d).map fun n => .split b dep maxD maxC cs st n tr br bl
        else .ok (.split b dep maxD maxC cs (st ++ [d]) tl tr br bl)
      | some .topRight =>
        if rect_in_rect tr.bounds bb then
          (tr.insert d).map fun n => .split b dep maxD maxC cs st tl n br bl
        else .ok (.split b dep maxD maxC cs (st ++ [d]) tl tr br bl)
      | some .bottomRight =>
        if rect_in_rect br.bounds bb then
          (br.insert d).map fun n => .split b dep maxD maxC cs st tl tr n bl
        else .ok (.split b dep maxD maxC cs (st ++ [d]) tl tr br bl)
      | some .bottomLeft =>
        if rect_in_rect bl.bounds bb then
          (bl.insert d).map fun n => .split b dep maxD maxC cs st tl tr br n
        else .ok (.split b dep maxD maxC cs (st ++ [d]) tl tr br bl)

/-- The fall-through arm of `BoundsNode::retrieve`: the entire contents
(descendants) of every sub-node whose bounds intersect the query
bbox, in index order. -/
def bRetrieveSpill (bb : QRect) (tl tr br bl : BNode D) : List D :=
  (if rects_intersect tl.bounds bb then tl.data else []) ++
  ((if rects_intersect tr.bounds bb then tr.data else []) ++
  ((if rects_intersect br.bounds bb then br.data else []) ++
  (if rects_intersect bl.bounds bb then bl.data else [])))

/-- `BoundsNode::retrieve`: yield this node's children (direct then
stuck), then, when subdivided and the datum has a bbox: recurse into the
chosen sub-node if it fully contains the bbox, otherwise yield all
descendants of every sub-node whose bounds intersect the bbox. -/
def BNode.retrieve : BNode D → D → List D
  | .leaf _ _ _ _ cs st, _ => cs ++ st
  | .split b _ _ _ cs st tl tr br bl, d =>
    (cs ++ st) ++
      match bFindSubNode bboxOf b d, bboxOf d with
      | some .topLeft, some bb =>
        if rect_in_rect tl.bounds bb then tl.retrieve d
        else bRetrieveSpill bb tl tr br bl
      | some .topRight, some bb =>
        if rect_in_rect tr.bounds bb then tr.retrieve d
        else bRetrieveSpill bb tl tr br bl
      | some .bottomRight, some bb =>
        if rect_in_rect br.bounds bb then br.retrieve d
        else bRetrieveSpill bb tl tr br bl
      | some .bottomLeft, some bb =>
        if rect_in_rect bl.bounds bb then bl.retrieve d
        else bRetrieveSpill bb tl tr br bl
      | _, _ => []

/-- `BoundsQuadTree` (`src/quadtrees/bounds/mod.rs`). -/
structure BTree (D : Type) where
  root : BNode D
  size : Nat

/-- `BoundsQuadTree::new`. -/
def BTree.new (b : QRect) (maxD maxC : Nat) : BTree D :=
  ⟨.leaf b 0 maxD maxC [] [], 0⟩

/-- `BoundsQuadTree::insert`: fail with `CannotMakeBbox` if the datum
has no bbox, with `OutOfBounds` if the bbox is not fully contained in
the root bounds; otherwise insert into the root and increment `size`.
As in `PTree.insert`, the inner `error` branch (where the Rust code
would keep a partially updated root) is reachable only for trees whose
stored data lack bboxes, a situation excluded in the theorems below. -/
def BTree.insert (t : BTree D) (d : D) : BTree D × Option Error :=
  match bboxOf d with
  | none => (t, some .CannotMakeBbox)
  | some db =>
    if rect_in_rect t.root.bounds db then
      match t.root.insert bboxOf d with
      | .ok r => (⟨r, t.size + 1⟩, none)
      | .error e => (t, some e)
    else
      (t, some .OutOfBounds)

/-- `BoundsQuadTree::retrieve`: empty on a missing bbox or an
out-of-bounds bbox, otherwise delegate to the root. -/
def BTree.retrieve (t : BTree D) (d : D) : List D :=
  match bboxOf d with
  | none => []
  | some bb =>
    if rect_in_rect t.root.bounds bb then t.root.retrieve bboxOf d
    else []

end BoundsVariant

/-!
## Concrete bounds-tree scenario (spec §8, scenario 3)

Data are plain rectangles (`D = QRect`), whose geometry is the rect
itself, so `bounding_rect` always succeeds and returns the rect. -/

/-- `Datum::geometry().bounding_rect()` for a `Rect` datum: the rect
itself. -/
def rectBbox : QRect → Option QRect := some

def c9B1 : QRect := ⟨1, 1, 2, 2⟩

def c9B2 : QRect := ⟨3, 3, 4, 4⟩

def c9B3 : QRect := ⟨1, 1, 3, 3⟩

def c9B4 : QRect := ⟨6, 2, 7, 6⟩

def c9B5 : QRect := ⟨6, 1, 7, 2⟩

def c9B6 : QRect := ⟨6, 5, 7, 6⟩

/-- The six successive inserts of the scenario into a bounds tree with
bounds (0,0)-(8,8), `max_depth = 2`, `max_children = 2`. -/
def c9s1 : BTree QRect × Option Error :=
  BTree.insert rectBbox (BTree.new ⟨0, 0, 8, 8⟩ 2 2) c9B1

def c9s2 : BTree QRect × Option Error := BTree.insert rectBbox c9s1.1 c9B2

def c9s3 : BTree QRect × Option Error := BTree.insert rectBbox c9s2.1 c9B3

def c9s4 : BTree QRect × Option Error := BTree.insert rectBbox c9s3.1 c9B4

def c9s5 : BTree QRect × Option Error := BTree.insert rectBbox c9s4.1 c9B5

def c9s6 : BTree QRect × Option Error := BTree.insert rectBbox c9s5.1 c9B6

/-!
## `find_r` (`src/quadtrees/point/mod.rs` and `src/quadtrees/bounds/mod.rs`)

The comparator (`X: Distance<T>` wrapped by `with_calc`) becomes the two
explicit functions `dB` (its `dist_bbox`) and `dG` (its `dist_geom`),
each returning `Result<T, Error>`.  Rust's explicit stack — nodes pushed
in reverse index order, popped depth-first with the running
`(min_dist, min_item)` threaded through — is exactly a preorder
traversal, rendered as structural recursion threading the same state.
The state's second component models `min_item`, with `none` standing
for the initial `Err(NoneInRadius)`. -/

section FindR

variable {D : Type} (bboxOf : D → Option QRect)
variable (dB : QRect → Except Error ℚ) (dG : D → Except Error ℚ)

/-- One iteration of the children loop of the point `find_r`: keep the
child if `child_dist <= min_dist` (ties replace the incumbent). -/
def pChildStep (s : ℚ × Option D) (c : D) : Except Error (ℚ × Option D) := do
  let cd ← dG c
  if cd ≤ s.1 then pure (cd, some c) else pure s

/-- The children loop of the point `find_r`. -/
def pChildScan (cs : List D) (s : ℚ × Option D) : Except Error (ℚ × Option D) :=
  cs.foldlM (pChildStep dG) s

/-- The stack loop of the point `find_r`: skip a popped node whose
bounds distance is at least the running minimum, otherwise scan its
children and descend into the sub-nodes in index order. -/
def pFindAux : PNode D → ℚ × Option D → Except Error (ℚ × Option D)
  | .leaf b _ _ _ cs, s => do
    let bd ← dB b
    if s.1 ≤ bd then pure s
    else pChildScan dG cs s
  | .split b _ _ _ cs tl tr br bl, s => do
    let bd ← dB b
    if s.1 ≤ bd then pure s
    else do
      let s1 ← pChildScan dG cs s
      let s2 ← pFindAux tl s1
      let s3 ← pFindAux tr s2
      let s4 ← pFindAux br s3
      pFindAux bl s4

/-- `PointQuadTree::find_r`: error `OutOfBounds` when the comparator's
distance to the root bounds is nonzero, `Empty` when `size == 0`,
`NoneInRadius` when nothing within `r` was found; otherwise the closest
item with its distance. -/
def pFindR (t : PTree D) (r : ℚ) : Except Error (D × ℚ) := do
  let d0 ← dB t.root.bounds
  if d0 ≠ 0 then .error .OutOfBounds
  else if t.size = 0 then .error .Empty
  else do
    let s ← pFindAux dB dG t.root (r, none)
    match s.2 with
    | some m => pure (m, s.1)
    | none => .error .NoneInRadius

/-- One iteration of the children loop of the bounds `find_r`: first
the cheap prefilter on the child's own bbox distance (skip if it
already exceeds the running minimum), then `dist_geom`. -/
def bChildStep (s : ℚ × Option D) (c : D) : Except Error (ℚ × Option D) := do
  match bboxOf c with
  | none => .error .CannotMakeBbox
  | some bb => do
    let pre ← dB bb
    if s.1 < pre then pure s
    else do
      let cd ← dG c
      if cd ≤ s.1 then pure (cd, some c) else pure s

/-- The children loop of the bounds `find_r` (direct children then
stuck children, as iterated by `BoundsNode::children`). -/
def bChildScan (cs : List D) (s : ℚ × Option D) : Except Error (ℚ × Option D) :=
  cs.foldlM (bChildStep bboxOf dB dG) s

/-- The stack loop of the bounds `find_r`. -/
def bFindAux : BNode D → ℚ × Option D → Except Error (ℚ × Option D)
  | .leaf b _ _ _ cs st, s => do
    let bd ← dB b
    if s.1 ≤ bd then pure s
    else bChildScan bboxOf dB dG (cs ++ st) s
  | .split b _ _ _ cs st tl tr br bl, s => do
    let bd ← dB b
    if s.1 ≤ bd then pure s
    else do
      let s1 ← bChildScan bboxOf dB dG (cs ++ st) s
      let s2 ← bFindAux tl s1
      let s3 ← bFindAux tr s2
      let s4 ← bFindAux br s3
      bFindAux bl s4

/-- `BoundsQuadTree::find_r`. -/
def bFindR (t : BTree D) (r : ℚ) : Except Error (D × ℚ) := do
  let d0 ← dB t.root.bounds
  if d0 ≠ 0 then .error .OutOfBounds
  else if t.size = 0 then .error .Empty
  else do
    let s ← bFindAux bboxOf dB dG t.root (r, none)
    match s.2 with
    | some m => pure (m, s.1)
    | none => .error .NoneInRadius

end FindR

/-!
## `knn` (`src/quadtrees/knn.rs`)

The shared work-stack k-nearest-neighbours search, generic over the
node type (`N: Node<D, T>` becomes the three accessor parameters).  In
this source file's generation of the `Distance` trait the comparator's
distance calls return plain values: the file compares
`cmp.dist_bbox(root.bounds())` against `T::zero()` directly, pushes
`cmp.dist_geom(..)` results straight onto the sorted work list and
compares them with `>`; there is no error channel for distances, and
the sort comparator unwraps `partial_cmp` with
`expect("Distances contain no NaN values.")` (a panic on NaN).  The
work stack is kept sorted; here the list is ascending with the top at
the head, matching the Rust `Vec` sorted descending and popped from the
end.  Rust's sort is unstable, so order among equal distances is
unspecified; the deterministic insertion sort below realises one
permitted outcome. -/

/-- `KnnType` from `src/quadtrees/knn.rs`. -/
inductive KnnItem (N D : Type) : Type where
  | node (n : N)
  | child (d : D)
deriving Repr, DecidableEq

def insertAsc {α : Type} (x : α × ℚ) : List (α × ℚ) → List (α × ℚ)
  | [] => [x]
  | y :: ys => if x.2 ≤ y.2 then x :: y :: ys else y :: insertAsc x ys

def sortAsc {α : Type} (l : List (α × ℚ)) : List (α × ℚ) := l.foldr insertAsc []

section Knn

variable {N D : Type}
variable (boundsOf : N → QRect) (childrenOf : N → List D) (subsOf : N → List N)
variable (dB : QRect → ℚ) (dG : D → ℚ)

/-- Step 2 of the knn loop: pop consecutive data from the stack top
into the results; return (`Sum.inl`) as soon as the next datum lies
beyond `r`, or immediately after the `k`-th result is pushed. -/
def knnPop (k : Nat) (r : ℚ) :
    List (KnnItem N D × ℚ) → List (D × ℚ) →
    (List (D × ℚ)) ⊕ (List (KnnItem N D × ℚ) × List (D × ℚ))
  | (.child c, d) :: rest, res =>
    if r < d then .inl res
    else
      if k ≤ res.length + 1 then .inl (res ++ [(c, d)])
      else knnPop k r rest (res ++ [(c, d)])
  | st, res => .inr (st, res)

/-- The knn loop: sort, pop data, then expand the top node (children
with their `dist_geom`, sub-nodes with their `dist_bbox`) and repeat.
`fuel` bounds the number of node expansions; each expansion removes one
node from the stack and pushes only that node's sub-nodes, so any fuel
of at least the total node count of the stack makes the fuel-0 branch
unreachable. -/
def knnGo (k : Nat) (r : ℚ) :
    Nat → List (KnnItem N D × ℚ) → List (D × ℚ) → List (D × ℚ)
  | 0, _, res => res
  | fuel + 1, stack, res =>
    match knnPop k r (sortAsc stack) res with
    | .inl out => out
    | .inr (st, res') =>
      match st with
      | (.node n, d) :: rest =>
        if r < d then res'
        else
          knnGo k r fuel
            (((childrenOf n).map fun c => (KnnItem.child c, dG c)) ++
              (((subsOf n).map fun m => (KnnItem.node m, dB (boundsOf m))) ++ rest))
            res'
      | _ => res'

/-- `knn` from `src/quadtrees/knn.rs`: error `OutOfBounds` when the
comparator's distance to the root bounds is nonzero; otherwise run the
loop seeded with the root.  Its only error exit is that up-front
check. -/
def knn (root : N) (k : Nat) (r : ℚ) (fuel : Nat) : Except Error (List (D × ℚ)) :=
  if dB (boundsOf root) ≠ 0 then .error .OutOfBounds
  else .ok (knnGo boundsOf childrenOf subsOf dB dG k r fuel
    [(KnnItem.node root, dB (boundsOf root))] [])

end Knn

/-- The sub-node list of a point node, in index order. -/
def pSubsOf {D : Type} : PNode D → List (PNode D)
  | .leaf _ _ _ _ _ => []
  | .split _ _ _ _ _ tl tr br bl => [tl, tr, br, bl]

/-- The sub-node list of a bounds node, in index order. -/
def bSubsOf {D : Type} : BNode D → List (BNode D)
  | .leaf _ _ _ _ _ _ => []
  | .split _ _ _ _ _ _ tl tr br bl => [tl, tr, br, bl]

/-- `PointQuadTree::knn_r`: delegates to the shared `knn` with the
point node accessors; the fuel is the node count of the tree, which the
loop can never exhaust. -/
def pKnn {D : Type} (dB : QRect → ℚ) (dG : D → ℚ) (root : PNode D) (k : Nat) (r : ℚ) :
    Except Error (List (D × ℚ)) :=
  knn PNode.bounds PNode.childrenList pSubsOf dB dG root k r (root.count + 1)

/-- `BoundsQuadTree::knn_r`: delegates to the shared `knn` with the
bounds node accessors (children = direct then stuck). -/
def bKnn {D : Type} (dB : QRect → ℚ) (dG : D → ℚ) (root : BNode D) (k : Nat) (r : ℚ) :
    Except Error (List (D × ℚ)) :=
  knn BNode.bounds BNode.childrenList bSubsOf dB dG root k r (root.count + 1)

/-!
## C4: the subdivision invariant

`midX`/`midY` are the bounds midpoint `(mx, my)` used by both
`find_sub_node` and `subdivide`. -/

def midX (b : QRect) : ℚ := b.minX + b.width / 2

def midY (b : QRect) : ℚ := b.minY + b.height / 2

/-- The C4 invariant on a point node: wherever sub-nodes are present,
their bounds tile the parent bounds exactly, in the fixed order
[TL, TR, BR, BL] with top-left origin, each sub-node is one level
deeper, and `max_depth`/`max_children` are inherited verbatim. -/
def PNode.SubOk {D : Type} : PNode D → Prop
  | .leaf _ _ _ _ _ => True
  | .split b dep maxD maxC _ tl tr br bl =>
    (tl.bounds = ⟨b.minX, b.minY, midX b, midY b⟩ ∧
     tr.bounds = ⟨midX b, b.minY, b.maxX, midY b⟩ ∧
     br.bounds = ⟨midX b, midY b, b.maxX, b.maxY⟩ ∧
     bl.bounds = ⟨b.minX, midY b, midX b, b.maxY⟩) ∧
    (tl.depth = dep + 1 ∧ tr.depth = dep + 1 ∧ br.depth = dep + 1 ∧ bl.depth = dep + 1) ∧
    (tl.maxDepth = maxD ∧ tr.maxDepth = maxD ∧ br.maxDepth = maxD ∧ bl.maxDepth = maxD) ∧
    (tl.maxChildren = maxC ∧ tr.maxChildren = maxC ∧
     br.maxChildren = maxC ∧ bl.maxChildren = maxC) ∧
    tl.SubOk ∧ tr.SubOk ∧ br.SubOk ∧ bl.SubOk

/-- Every node's bounds in the subtree are valid (min ≤ max), the
`geo::Rect` construction invariant. -/
def PNode.ValidBounds {D : Type} : PNode D → Prop
  | .leaf b _ _ _ _ => ValidRect b
  | .split b _ _ _ _ tl tr br bl =>
    ValidRect b ∧ tl.ValidBounds ∧ tr.ValidBounds ∧ br.ValidBounds ∧ bl.ValidBounds

/-- The C4 invariant on a bounds node. -/
def BNode.SubOk {D : Type} : BNode D → Prop
  | .leaf _ _ _ _ _ _ => True
  | .split b dep maxD maxC _ _ tl tr br bl =>
    (tl.bounds = ⟨b.minX, b.minY, midX b, midY b⟩ ∧
     tr.bounds = ⟨midX b, b.minY, b.maxX, midY b⟩ ∧
     br.bounds = ⟨midX b, midY b, b.maxX, b.maxY⟩ ∧
     bl.bounds = ⟨b.minX, midY b, midX b, b.maxY⟩) ∧
    (tl.depth = dep + 1 ∧ tr.depth = dep + 1 ∧ br.depth = dep + 1 ∧ bl.depth = dep + 1) ∧
    (tl.maxDepth = maxD ∧ tr.maxDepth = maxD ∧ br.maxDepth = maxD ∧ bl.maxDepth = maxD) ∧
    (tl.maxChildren = maxC ∧ tr.maxChildren = maxC ∧
     br.maxChildren = maxC ∧ bl.maxChildren = maxC) ∧
    tl.SubOk ∧ tr.SubOk ∧ br.SubOk ∧ bl.SubOk

def BNode.ValidBounds {D : Type} : BNode D → Prop
  | .leaf b _ _ _ _ _ => ValidRect b
  | .split b _ _ _ _ _ tl tr br bl =>
    ValidRect b ∧ tl.ValidBounds ∧ tr.ValidBounds ∧ br.ValidBounds ∧ bl.ValidBounds

section ReachDefs

variable {D : Type} (asPoint : D → QPoint) (bboxOf : D → Option QRect)

/-- Point-tree states reachable through the public API: constructed by
`new` (with a `geo::Rect`, hence valid bounds) and mutated only by
successful inserts. -/
inductive PReach : PTree D → Prop where
  | new (b : QRect) (maxD maxC : Nat) (hb : ValidRect b) :
      PReach (PTree.new b maxD maxC)
  | ins (t : PTree D) (d : D) (h : PReach t)
      (hok : (PTree.insert asPoint t d).2 = none) :
      PReach (PTree.insert asPoint t d).1

/-- Bounds-tree states reachable through the public API. -/
inductive BReach : BTree D → Prop where
  | new (b : QRect) (maxD maxC : Nat) (hb : ValidRect b) :
      BReach (BTree.new b maxD maxC)
  | ins (t : BTree D) (d : D) (h : BReach t)
      (hok : (BTree.insert bboxOf t d).2 = none) :
      BReach (BTree.insert bboxOf t d).1

end ReachDefs

section BboxDefs

variable {D : Type} (bboxOf : D → Option QRect)

/-- Every datum stored in the subtree has a bounding box.  This holds
for every tree reachable through the public API, which checks the bbox
on entry (`BoundsQuadTree::insert`). -/
def AllBbox (n : BNode D) : Prop := ∀ x ∈ n.data, (bboxOf x).isSome

end BboxDefs

/-!
## The metric-contract hypotheses of claim C1
-/

section FindHyps

variable {D : Type} (bboxOf : D → Option QRect)
variable (dB : QRect → Except Error ℚ) (dG : D → Except Error ℚ)

/-- The metric-contract hypothesis of the claim, point variant: at every
node of the tree the comparator's bbox distance is defined and
lower-bounds its geometry distance to every datum stored at or below
that node. -/
def PFindHyp : PNode D → Prop
  | .leaf b _ _ _ cs =>
    ∃ bd, dB b = .ok bd ∧ ∀ x ∈ cs, ∃ g, dG x = .ok g ∧ bd ≤ g
  | .split b dep maxD maxC cs tl tr br bl =>
    (∃ bd, dB b = .ok bd ∧
      ∀ x ∈ (PNode.split b dep maxD maxC cs tl tr br bl).data,
        ∃ g, dG x = .ok g ∧ bd ≤ g) ∧
    PFindHyp tl ∧ PFindHyp tr ∧ PFindHyp br ∧ PFindHyp bl

/-- The invariant carried by the `(min_dist, min_item)` state: whenever
an incumbent is present, `min_dist` is exactly its geometry distance. -/
def FindInv (s : ℚ × Option D) : Prop := ∀ x, s.2 = some x → dG x = .ok s.1

/-- The datum clause needed by the bounds variant's child prefilter:
the comparator's distance to a datum's own bbox is defined and
lower-bounds its geometry distance to the datum. -/
def DatumHyp (x : D) : Prop :=
  ∃ bb, bboxOf x = some bb ∧ ∃ p, dB bb = .ok p ∧ ∃ g, dG x = .ok g ∧ p ≤ g

/-- The metric-contract hypothesis of the claim, bounds variant, plus
(the amendment) the datum clause for each stored datum. -/
def BFindHyp : BNode D → Prop
  | .leaf b _ _ _ cs st =>
    (∃ bd, dB b = .ok bd ∧ ∀ x ∈ cs ++ st, ∃ g, dG x = .ok g ∧ bd ≤ g) ∧
    (∀ x ∈ cs ++ st, DatumHyp bboxOf dB dG x)
  | .split b dep maxD maxC cs st tl tr br bl =>
    (∃ bd, dB b = .ok bd ∧
      ∀ x ∈ (BNode.split b dep maxD maxC cs st tl tr br bl).data,
        ∃ g, dG x = .ok g ∧ bd ≤ g) ∧
    (∀ x ∈ cs ++ st, DatumHyp bboxOf dB dG x) ∧
    BFindHyp tl ∧ BFindHyp tr ∧ BFindHyp br ∧ BFindHyp bl

/-- The metric-contract hypothesis exactly as the claim states it for
the bounds variant: only the node clause (bbox distance of every node
lower-bounds the geometry distance of every datum stored at or below
it), with no clause about the stored data's own bboxes. -/
def BNodeOnlyHyp : BNode D → Prop
  | .leaf b _ _ _ cs st =>
    ∃ bd, dB b = .ok bd ∧ ∀ x ∈ cs ++ st, ∃ g, dG x = .ok g ∧ bd ≤ g
  | .split b dep maxD maxC cs st tl tr br bl =>
    (∃ bd, dB b = .ok bd ∧
      ∀ x ∈ (BNode.split b dep maxD maxC cs st tl tr br bl).data,
        ∃ g, dG x = .ok g ∧ bd ≤ g) ∧
    BNodeOnlyHyp tl ∧ BNodeOnlyHyp tr ∧ BNodeOnlyHyp br ∧ BNodeOnlyHyp bl

end FindHyps

/-!
## C1: counterexample data

Two rect data in a bounds tree that never subdivides, with a comparator
whose bbox distance to `cB`'s bbox (100) does not lower-bound its
geometry distance to `cB` (1).  The node clause of the claim still
holds (the only node's bbox distance is 0). -/

deriving instance DecidableEq for Except

def cA : QRect := ⟨0, 0, 1, 1⟩

def cB : QRect := ⟨2, 2, 3, 3⟩

def cdB : QRect → Except Error ℚ := fun r => .ok (if r = cB then 100 else 0)

def cdG : QRect → Except Error ℚ := fun c => .ok (if c = cB then 1 else 5)

def cT0 : BTree QRect × Option Error :=
  BTree.insert rectBbox (BTree.new ⟨0, 0, 8, 8⟩ 4 4) cA

def cT1 : BTree QRect × Option Error := BTree.insert rectBbox cT0.1 cB

def c1wt : PTree QPoint :=
  (PTree.insert (fun p => p) (PTree.new ⟨0, 0, 1, 1⟩ 4 4) ⟨0, 0⟩).1

def c1wdB : QRect → Except Error ℚ := fun _ => .ok 0

def c1wdG : QPoint → Except Error ℚ := fun _ => .ok 0

def c2t : PTree QPoint :=
  (PTree.insert (fun p => p) (PTree.new ⟨0, 0, 1, 1⟩ 4 4) ⟨0, 0⟩).1

def c4p : QPoint := ⟨1/10, 1/10⟩

def c4t0 : PTree QPoint := PTree.new ⟨0, 0, 1, 1⟩ 2 2

def c4t1 : PTree QPoint := (PTree.insert (fun p => p) c4t0 c4p).1

def c4t2 : PTree QPoint := (PTree.insert (fun p => p) c4t1 c4p).1

def c4t3 : PTree QPoint := (PTree.insert (fun p => p) c4t2 c4p).1

/-! ### Euclidean geometry over ℝ (`src/geom/euclidean`)

The distance formulas of the `geom` module work on `f64`; we embed them
over `ℝ` (so `sqrt` and the trigonometric functions are exact). -/

/-- `Bounds` from `src/geom/mod.rs`: an origin point plus width and height. -/
structure EBounds where
  originX : ℝ
  originY : ℝ
  width : ℝ
  height : ℝ

/-- `Bounds::x_min` from `src/geom/mod.rs`. -/
def EBounds.x_min (b : EBounds) : ℝ := b.originX

/-- `Bounds::y_min` from `src/geom/mod.rs`. -/
def EBounds.y_min (b : EBounds) : ℝ := b.originY

/-- `Bounds::x_max` from `src/geom/mod.rs`. -/
def EBounds.x_max (b : EBounds) : ℝ := b.originX + b.width

/-- `Bounds::y_max` from `src/geom/mod.rs`. -/
def EBounds.y_max (b : EBounds) : ℝ := b.originY + b.height

/-- `dist_sq_pt_pt` from `src/geom/euclidean/math.rs`. -/
def dist_sq_pt_pt (p p1 : ℝ × ℝ) : ℝ :=
  (p.1 - p1.1) ^ 2 + (p.2 - p1.2) ^ 2

/-- `dist_pt_pt` from `src/geom/euclidean/math.rs`. -/
noncomputable def eDist_pt_pt (p p1 : ℝ × ℝ) : ℝ :=
  Real.sqrt (dist_sq_pt_pt p p1)

/-- `Euclidean::dist_bounds_bounds` from `src/geom/euclidean/mod.rs`,
translated verbatim: the second comparison of `overlap_x` reads
`b2.x_max() >= b1.y_min()` (with `y_min`, exactly as in the source), and the
single-axis-overlap branches take the `min` of the two signed differences. -/
noncomputable def dist_bounds_bounds (b1 b2 : EBounds) : ℝ :=
  let overlap_x := b1.x_max ≥ b2.x_min ∧ b2.x_max ≥ b1.y_min
  let overlap_y := b1.y_max ≥ b2.y_min ∧ b2.y_max ≥ b1.y_min
  if overlap_x then
    if overlap_y then 0
    else min (b1.y_min - b2.y_max) (b2.y_min - b1.y_max)
  else
    if overlap_y then min (b1.x_min - b2.x_max) (b2.x_min - b1.x_max)
    else
      let xs : ℝ × ℝ :=
        if b1.x_max < b2.x_min then (b1.x_max, b2.x_min) else (b1.x_min, b2.x_max)
      let ys : ℝ × ℝ :=
        if b1.y_max < b2.y_min then (b1.y_max, b2.y_min) else (b1.y_min, b2.y_max)
      eDist_pt_pt (xs.1, ys.1) (xs.2, ys.2)

/-- First rectangle of the C5 failing input: origin `(0,0)`, width 1,
height 1, i.e. extents `[0,1] × [0,1]`. -/
def c5b1 : EBounds := ⟨0, 0, 1, 1⟩

/-- Second rectangle of the C5 failing input: origin `(0,3)`, width 1,
height 1, i.e. extents `[0,1] × [3,4]`: the x-extents coincide and the
vertical gap is `3 - 1 = 2`. -/
def c5b2 : EBounds := ⟨0, 3, 1, 1⟩

/-! ### Spherical geometry over ℝ (`src/geom/spherical/math.rs`) -/

/-- Haversine `dist_pt_pt` from `src/geom/spherical/math.rs`; points are
`(lng, lat)` pairs in radians. -/
noncomputable def sphDist_pt_pt (p1 p2 : ℝ × ℝ) : ℝ :=
  let theta1 := p1.2
  let theta2 := p2.2
  let delta_theta := p2.2 - p1.2
  let delta_lambda := p2.1 - p1.1
  let a := Real.sin (delta_theta / 2) ^ 2 +
    Real.cos theta1 * Real.cos theta2 * Real.sin (delta_lambda / 2) ^ 2
  2 * Real.arcsin (Real.sqrt a)

/-- `dist_pt_line` from `src/geom/spherical/math.rs`: the segment is given by
its start and end points (projection logic as in the Euclidean case, distance
by haversine). -/
noncomputable def sphDist_pt_line (pt lineStart lineEnd : ℝ × ℝ) : ℝ :=
  let a := pt.1 - lineStart.1
  let b := pt.2 - lineStart.2
  let c := lineEnd.1 - lineStart.1
  let d := lineEnd.2 - lineStart.2
  let dot := a * c + b * d
  let len_sq := c * c + d * d
  let param := if len_sq = 0 then -1 else dot / len_sq
  if param < 0 then sphDist_pt_pt pt lineStart
  else if param > 1 then sphDist_pt_pt pt lineEnd
  else sphDist_pt_pt pt (lineStart.1 + param * c, lineStart.2 + param * d)

/-- `geo::Rect` over ℝ: min and max corners, as produced by `Rect::new`. -/
structure SRect where
  minX : ℝ
  minY : ℝ
  maxX : ℝ
  maxY : ℝ

/-- `geo::Rect::contains(&Point)` as used by `dist_pt_rect`
(`rect.contains(pt)` in `src/geom/spherical/math.rs:143`). The `geo` crate
uses DE-9IM containment, which holds only for points strictly inside the
rectangle — boundary points are NOT contained. The repository itself
documents this semantics in the doc comment of `pt_in_rect` in
`src/geom/math.rs` ("does not return true when the `Point` site on the
boundary of the `Rect`"), which is why the quadtree code uses `pt_in_rect`
instead of `Rect::contains` everywhere except here. -/
def sRectContains (r : SRect) (pt : ℝ × ℝ) : Prop :=
  r.minX < pt.1 ∧ pt.1 < r.maxX ∧ r.minY < pt.2 ∧ pt.2 < r.maxY

noncomputable instance (r : SRect) (pt : ℝ × ℝ) : Decidable (sRectContains r pt) := by
  unfold sRectContains
  infer_instance

/-- `dist_pt_rect` from `src/geom/spherical/math.rs`. -/
noncomputable def dist_pt_rect (pt : ℝ × ℝ) (rect : SRect) : ℝ :=
  if sRectContains rect pt then 0
  else if pt.1 < rect.minX then
    sphDist_pt_line pt (rect.minX, rect.minY) (rect.minX, rect.maxY)
  else if pt.1 > rect.maxX then
    sphDist_pt_line pt (rect.maxX, rect.minY) (rect.maxX, rect.maxY)
  else if pt.2 < rect.minY then
    sphDist_pt_line pt (rect.minX, rect.minY) (rect.maxX, rect.minY)
  else
    sphDist_pt_line pt (rect.minX, rect.maxY) (rect.maxX, rect.maxY)

/-- The C6 failing input: the corner point `(0, 0)` of the rectangle
`[0,1] × [0,1]` (radian coordinates) — a point on the boundary. -/
def c6pt : ℝ × ℝ := (0, 0)

/-- The C6 rectangle `[0,1] × [0,1]`. -/
def c6rect : SRect := ⟨0, 0, 1, 1⟩

/-!
## Supporting lemmas: redistribution is a permutation

Subdivision re-inserts every datum into exactly one bucket (a quadrant,
or, in the bounds variant, the stuck list), so the concatenation of the
buckets is a permutation of the original list. -/

theorem filter_quadrant_perm {α : Type} (f : α → SubNode) (L : List α) :
    (L.filter fun d => f d == SubNode.topLeft) ++
      ((L.filter fun d => f d == SubNode.topRight) ++
      ((L.filter fun d => f d == SubNode.bottomRight) ++
      (L.filter fun d => f d == SubNode.bottomLeft))) |>.Perm L := by
  induction L with
  | nil => simp
  | cons a t ih =>
    cases h : f a
    · simpa [List.filter_cons, h] using ih
    · simp only [List.filter_cons, h]
      simp
      exact List.perm_middle.trans (ih.cons a)
    · simp only [List.filter_cons, h]
      simp
      exact ((List.perm_middle.append_left _).trans List.perm_middle).trans (ih.cons a)
    · simp only [List.filter_cons, h]
      simp
      exact (((List.perm_middle.append_left _).append_left _).trans
        ((List.perm_middle.append_left _).trans List.perm_middle)).trans (ih.cons a)

theorem filter_assign_perm {α : Type} (g : α → Option SubNode) (L : List α) :
    (L.filter fun d => g d == none) ++
      ((L.filter fun d => g d == some SubNode.topLeft) ++
      ((L.filter fun d => g d == some SubNode.topRight) ++
      ((L.filter fun d => g d == some SubNode.bottomRight) ++
      (L.filter fun d => g d == some SubNode.bottomLeft)))) |>.Perm L := by
  induction L with
  | nil => simp
  | cons a t ih =>
    rcases h : g a with _ | sn
    · simpa [List.filter_cons, h] using ih
    · cases sn
      · simp only [List.filter_cons, h]
        simp
        exact List.perm_middle.trans (ih.cons a)
      · simp only [List.filter_cons, h]
        simp
        exact ((List.perm_middle.append_left _).trans List.perm_middle).trans (ih.cons a)
      · simp only [List.filter_cons, h]
        simp
        exact (((List.perm_middle.append_left _).append_left _).trans
          ((List.perm_middle.append_left _).trans List.perm_middle)).trans (ih.cons a)
      · simp only [List.filter_cons, h]
        simp
        exact ((((List.perm_middle.append_left _).append_left _).append_left _).trans
          ((((List.perm_middle.append_left _).append_left _).trans
            ((List.perm_middle.append_left _).trans List.perm_middle)))).trans (ih.cons a)

/-! ## Supporting lemmas: the point variant -/

section PointLemmas

variable {D : Type} (asPoint : D → QPoint)

/-- `PointNode::datum_position` is `Some` for every datum, so
`find_sub_node` always selects a quadrant. -/
theorem pFindSubNode_eq (b : QRect) (d : D) :
    pFindSubNode asPoint b d = some (find_sub_node_idx b (asPoint d)) := rfl

theorem pDistribute_fields (budget : Nat) (b : QRect) (dep maxD maxC : Nat) (L : List D) :
    (pDistribute asPoint budget b dep maxD maxC L).bounds = b ∧
    (pDistribute asPoint budget b dep maxD maxC L).depth = dep ∧
    (pDistribute asPoint budget b dep maxD maxC L).maxDepth = maxD ∧
    (pDistribute asPoint budget b dep maxD maxC L).maxChildren = maxC := by
  cases budget with
  | zero =>
    simp [pDistribute, PNode.bounds, PNode.depth, PNode.maxDepth, PNode.maxChildren]
  | succ n =>
    by_cases h : L.length ≤ maxC <;>
      simp [pDistribute, h, PNode.bounds, PNode.depth, PNode.maxDepth, PNode.maxChildren]

/-- A successful `PointNode::insert` leaves the node's bounds, depth and
thresholds unchanged. -/
theorem pInsert_fields (n : PNode D) (d : D) (n' : PNode D)
    (h : n.insert asPoint d = .ok n') :
    n'.bounds = n.bounds ∧ n'.depth = n.depth ∧
    n'.maxDepth = n.maxDepth ∧ n'.maxChildren = n.maxChildren := by
  cases n with
  | leaf b dep maxD maxC cs =>
    simp only [PNode.insert] at h
    split at h
    · cases h
      simpa [PNode.bounds, PNode.depth, PNode.maxDepth, PNode.maxChildren] using
        pDistribute_fields asPoint (maxD - dep) b dep maxD maxC (cs ++ [d])
    · cases h
      simp [PNode.bounds, PNode.depth, PNode.maxDepth, PNode.maxChildren]
  | split b dep maxD maxC cs tl tr br bl =>
    cases hx : find_sub_node_idx b (asPoint d) <;>
      simp only [PNode.insert, pFindSubNode_eq, hx] at h
    · cases htl : tl.insert asPoint d <;> simp [htl, Except.map] at h
      cases h
      simp [PNode.bounds, PNode.depth, PNode.maxDepth, PNode.maxChildren]
    · cases htr : tr.insert asPoint d <;> simp [htr, Except.map] at h
      cases h
      simp [PNode.bounds, PNode.depth, PNode.maxDepth, PNode.maxChildren]
    · cases hbr : br.insert asPoint d <;> simp [hbr, Except.map] at h
      cases h
      simp [PNode.bounds, PNode.depth, PNode.maxDepth, PNode.maxChildren]
    · cases hbl : bl.insert asPoint d <;> simp [hbl, Except.map] at h
      cases h
      simp [PNode.bounds, PNode.depth, PNode.maxDepth, PNode.maxChildren]

/-- `PointNode::insert` never returns an error: the `CannotFindSubNode`
branch is unreachable because `datum_position` is always `Some`. -/
theorem pInsert_ok (n : PNode D) (d : D) :
    ∃ n', n.insert asPoint d = .ok n' := by
  induction n with
  | leaf b dep maxD maxC cs =>
    simp only [PNode.insert]
    split <;> exact ⟨_, rfl⟩
  | split b dep maxD maxC cs tl tr br bl ihtl ihtr ihbr ihbl =>
    cases hx : find_sub_node_idx b (asPoint d)
    · obtain ⟨v, hv⟩ := ihtl
      exact ⟨PNode.split b dep maxD maxC cs v tr br bl,
        by simp [PNode.insert, pFindSubNode_eq, hx, hv, Except.map]⟩
    · obtain ⟨v, hv⟩ := ihtr
      exact ⟨PNode.split b dep maxD maxC cs tl v br bl,
        by simp [PNode.insert, pFindSubNode_eq, hx, hv, Except.map]⟩
    · obtain ⟨v, hv⟩ := ihbr
      exact ⟨PNode.split b dep maxD maxC cs tl tr v bl,
        by simp [PNode.insert, pFindSubNode_eq, hx, hv, Except.map]⟩
    · obtain ⟨v, hv⟩ := ihbl
      exact ⟨PNode.split b dep maxD maxC cs tl tr br v,
        by simp [PNode.insert, pFindSubNode_eq, hx, hv, Except.map]⟩

/-- Redistribution stores exactly the given data. -/
theorem pDistribute_data (budget : Nat) (b : QRect) (dep maxD maxC : Nat) (L : List D) :
    (pDistribute asPoint budget b dep maxD maxC L).data.Perm L := by
  induction budget generalizing b dep L with
  | zero => simp [pDistribute, PNode.data]
  | succ n ih =>
    by_cases h : L.length ≤ maxC
    · simp [pDistribute, h, PNode.data]
    · simp only [pDistribute, h, if_false, PNode.data, List.nil_append]
      exact ((ih _ _ _).append ((ih _ _ _).append ((ih _ _ _).append (ih _ _ _)))).trans
        (filter_quadrant_perm (fun d => find_sub_node_idx b (asPoint d)) L)

/-- A successful `PointNode::insert` stores exactly the new datum in
addition to what was already there. -/
theorem pInsert_data (n : PNode D) (d : D) (n' : PNode D)
    (h : n.insert asPoint d = .ok n') :
    n'.data.Perm (d :: n.data) := by
  induction n generalizing n' with
  | leaf b dep maxD maxC cs =>
    simp only [PNode.insert] at h
    split at h
    · cases h
      exact (pDistribute_data asPoint _ _ _ _ _ _).trans (List.perm_append_singleton d cs)
    · cases h
      simp only [PNode.data]
      exact List.perm_append_singleton d cs
  | split b dep maxD maxC cs tl tr br bl ihtl ihtr ihbr ihbl =>
    cases hx : find_sub_node_idx b (asPoint d) <;>
      simp only [PNode.insert, pFindSubNode_eq, hx] at h
    · cases htl : tl.insert asPoint d <;> simp [htl, Except.map] at h
      cases h
      simp only [PNode.data]
      exact (((ihtl _ htl).append_right _).append_left cs).trans List.perm_middle
    · cases htr : tr.insert asPoint d <;> simp [htr, Except.map] at h
      cases h
      simp only [PNode.data]
      exact ((((ihtr _ htr).append_right _).append_left _).append_left cs).trans
        (((List.perm_middle.append_left _).trans List.perm_middle))
    · cases hbr : br.insert asPoint d <;> simp [hbr, Except.map] at h
      cases h
      simp only [PNode.data]
      exact (((((ihbr _ hbr).append_right _).append_left _).append_left _).append_left cs).trans
        ((((List.perm_middle.append_left _).append_left _).trans
          ((List.perm_middle.append_left _).trans List.perm_middle)))
    · cases hbl : bl.insert asPoint d <;> simp [hbl, Except.map] at h
      cases h
      simp only [PNode.data]
      exact ((((((ihbl _ hbl).append_left _).append_left _).append_left _).append_left cs)).trans
        (((((List.perm_middle.append_left _).append_left _).append_left _).trans
          ((((List.perm_middle.append_left _).append_left _).trans
            ((List.perm_middle.append_left _).trans List.perm_middle)))))

end PointLemmas

/-! ## Supporting lemmas: the bounds variant -/

theorem except_bind_ok {α β ε : Type} {x : Except ε α} {f : α → Except ε β} {v : β}
    (h : (x >>= f) = .ok v) : ∃ a, x = .ok a ∧ f a = .ok v := by
  cases x with
  | error e => simp [Bind.bind, Except.bind] at h
  | ok a => exact ⟨a, rfl, by simpa [Bind.bind, Except.bind] using h⟩

section BoundsLemmas

variable {D : Type} (bboxOf : D → Option QRect)

theorem bDistribute_fields (budget : Nat) (b : QRect) (dep maxD maxC : Nat)
    (st L : List D) (n' : BNode D)
    (h : bDistribute bboxOf budget b dep maxD maxC st L = .ok n') :
    n'.bounds = b ∧ n'.depth = dep ∧ n'.maxDepth = maxD ∧ n'.maxChildren = maxC := by
  cases budget with
  | zero =>
    simp only [bDistribute] at h
    cases h
    simp [BNode.bounds, BNode.depth, BNode.maxDepth, BNode.maxChildren]
  | succ n =>
    simp only [bDistribute] at h
    split at h
    · cases h
      simp [BNode.bounds, BNode.depth, BNode.maxDepth, BNode.maxChildren]
    · split at h
      · obtain ⟨vtl, _, h⟩ := except_bind_ok h
        obtain ⟨vtr, _, h⟩ := except_bind_ok h
        obtain ⟨vbr, _, h⟩ := except_bind_ok h
        obtain ⟨vbl, _, h⟩ := except_bind_ok h
        cases h
        simp [BNode.bounds, BNode.depth, BNode.maxDepth, BNode.maxChildren]
      · simp at h

/-- Redistribution succeeds when every datum has a bbox, and stores
exactly the pre-existing stuck children plus the given data. -/
theorem bDistribute_ok (budget : Nat) (b : QRect) (dep maxD maxC : Nat)
    (st L : List D) (hall : ∀ x ∈ L, (bboxOf x).isSome) :
    ∃ n', bDistribute bboxOf budget b dep maxD maxC st L = .ok n' ∧
      n'.data.Perm (st ++ L) := by
  induction budget generalizing b dep st L with
  | zero =>
    exact ⟨BNode.leaf b dep maxD maxC L st, rfl,
      by simpa [BNode.data] using @List.perm_append_comm D L st⟩
  | succ n ih =>
    by_cases hlen : L.length ≤ maxC
    · exact ⟨BNode.leaf b dep maxD maxC L st, by simp [bDistribute, hlen],
        by simpa [BNode.data] using @List.perm_append_comm D L st⟩
    · have hAllTrue : L.all (fun d => (bboxOf d).isSome) = true := by
        rw [List.all_eq_true]; exact hall
      obtain ⟨vtl, htl, ptl⟩ := ih (quadrantRect b .topLeft) (dep + 1) []
        (L.filter fun d => bAssign bboxOf b d == some SubNode.topLeft)
        (fun x hx => hall x (List.mem_of_mem_filter hx))
      obtain ⟨vtr, htr, ptr⟩ := ih (quadrantRect b .topRight) (dep + 1) []
        (L.filter fun d => bAssign bboxOf b d == some SubNode.topRight)
        (fun x hx => hall x (List.mem_of_mem_filter hx))
      obtain ⟨vbr, hbr, pbr⟩ := ih (quadrantRect b .bottomRight) (dep + 1) []
        (L.filter fun d => bAssign bboxOf b d == some SubNode.bottomRight)
        (fun x hx => hall x (List.mem_of_mem_filter hx))
      obtain ⟨vbl, hbl, pbl⟩ := ih (quadrantRect b .bottomLeft) (dep + 1) []
        (L.filter fun d => bAssign bboxOf b d == some SubNode.bottomLeft)
        (fun x hx => hall x (List.mem_of_mem_filter hx))
      refine ⟨BNode.split b dep maxD maxC []
          (st ++ L.filter fun d => bAssign bboxOf b d == none) vtl vtr vbr vbl,
        by simp [bDistribute, hlen, hAllTrue, htl, htr, hbr, hbl, Bind.bind, Except.bind], ?_⟩
      simp only [BNode.data, List.nil_append]
      rw [List.append_assoc]
      refine (List.Perm.append_left st ?_).trans
        (List.Perm.append_left st (filter_assign_perm (bAssign bboxOf b) L)).symm.symm
      exact (ptl.append (ptr.append (pbr.append pbl))).append_left _

/-- A successful `BoundsNode::insert` leaves the node's bounds, depth
and thresholds unchanged. -/
theorem bInsert_fields (n : BNode D) (d : D) (n' : BNode D)
    (h : n.insert bboxOf d = .ok n') :
    n'.bounds = n.bounds ∧ n'.depth = n.depth ∧
    n'.maxDepth = n.maxDepth ∧ n'.maxChildren = n.maxChildren := by
  cases n with
  | leaf b dep maxD maxC cs stk =>
    simp only [BNode.insert] at h
    split at h
    · simpa [BNode.bounds, BNode.depth, BNode.maxDepth, BNode.maxChildren] using
        bDistribute_fields bboxOf _ _ _ _ _ _ _ _ h
    · cases h
      simp [BNode.bounds, BNode.depth, BNode.maxDepth, BNode.maxChildren]
  | split b dep maxD maxC cs stk tl tr br bl =>
    cases hbb : bboxOf d with
    | none => simp [BNode.insert, hbb] at h
    | some bb =>
      have hfs : bFindSubNode bboxOf b d =
          some (find_sub_node_idx b ⟨bb.minX + bb.width / 2, bb.minY + bb.height / 2⟩) := by
        simp [bFindSubNode, bDatumPosition, hbb]
      cases hx : find_sub_node_idx b
          (⟨bb.minX + bb.width / 2, bb.minY + bb.height / 2⟩ : QPoint) <;>
        simp only [BNode.insert, hbb, hfs, hx] at h
      · split at h
        · cases hs : tl.insert bboxOf d <;> simp [hs, Except.map] at h
          cases h
          simp [BNode.bounds, BNode.depth, BNode.maxDepth, BNode.maxChildren]
        · cases h
          simp [BNode.bounds, BNode.depth, BNode.maxDepth, BNode.maxChildren]
      · split at h
        · cases hs : tr.insert bboxOf d <;> simp [hs, Except.map] at h
          cases h
          simp [BNode.bounds, BNode.depth, BNode.maxDepth, BNode.maxChildren]
        · cases h
          simp [BNode.bounds, BNode.depth, BNode.maxDepth, BNode.maxChildren]
      · split at h
        · cases hs : br.insert bboxOf d <;> simp [hs, Except.map] at h
          cases h
          simp [BNode.bounds, BNode.depth, BNode.maxDepth, BNode.maxChildren]
        · cases h
          simp [BNode.bounds, BNode.depth, BNode.maxDepth, BNode.maxChildren]
      · split at h
        · cases hs : bl.insert bboxOf d <;> simp [hs, Except.map] at h
          cases h
          simp [BNode.bounds, BNode.depth, BNode.maxDepth, BNode.maxChildren]
        · cases h
          simp [BNode.bounds, BNode.depth, BNode.maxDepth, BNode.maxChildren]

/-- When every stored datum and the new datum have bboxes,
`BoundsNode::insert` succeeds and stores exactly the new datum in
addition to what was already there.  (In particular the error paths of
the subdivide-and-reinsert step are unreachable on trees built through
the public API.) -/
theorem bInsert_ok_data (n : BNode D) (d : D)
    (hA : AllBbox bboxOf n) (hd : (bboxOf d).isSome) :
    ∃ n', n.insert bboxOf d = .ok n' ∧ n'.data.Perm (d :: n.data) := by
  induction n with
  | leaf b dep maxD maxC cs stk =>
    by_cases ho : maxC ≤ cs.length ∧ dep < maxD
    · have hall : ∀ x ∈ cs ++ [d], (bboxOf x).isSome := by
        intro x hx
        rcases List.mem_append.mp hx with hx | hx
        · exact hA x (by simp [BNode.data, hx])
        · simp at hx
          exact hx ▸ hd
      obtain ⟨n', hn', pn'⟩ := bDistribute_ok bboxOf (maxD - dep) b dep maxD maxC stk
        (cs ++ [d]) hall
      refine ⟨n', by simp [BNode.insert, ho, hn'], ?_⟩
      refine pn'.trans ?_
      simp only [BNode.data]
      have he : stk ++ (cs ++ [d]) = (stk ++ cs) ++ [d] := (List.append_assoc stk cs [d]).symm
      rw [he]
      exact (List.perm_append_singleton d _).trans ((@List.perm_append_comm D stk cs).cons d)
    · refine ⟨BNode.leaf b dep maxD maxC (cs ++ [d]) stk, by simp [BNode.insert, ho], ?_⟩
      simp only [BNode.data]
      have he : (cs ++ [d]) ++ stk = cs ++ (d :: stk) := List.append_assoc cs [d] stk
      rw [he]
      exact List.perm_middle
  | split b dep maxD maxC cs stk tl tr br bl ihtl ihtr ihbr ihbl =>
    obtain ⟨bb, hbb⟩ := Option.isSome_iff_exists.mp hd
    have hfs : bFindSubNode bboxOf b d =
        some (find_sub_node_idx b ⟨bb.minX + bb.width / 2, bb.minY + bb.height / 2⟩) := by
      simp [bFindSubNode, bDatumPosition, hbb]
    have hsubA : ∀ m : BNode D, m.data ⊆ (BNode.split b dep maxD maxC cs stk tl tr br bl).data →
        AllBbox bboxOf m := fun m hm x hx => hA x (hm hx)
    have hAtl : AllBbox bboxOf tl := hsubA tl (by intro x hx; simp [BNode.data]; tauto)
    have hAtr : AllBbox bboxOf tr := hsubA tr (by intro x hx; simp [BNode.data]; tauto)
    have hAbr : AllBbox bboxOf br := hsubA br (by intro x hx; simp [BNode.data]; tauto)
    have hAbl : AllBbox bboxOf bl := hsubA bl (by intro x hx; simp [BNode.data]; tauto)
    cases hx : find_sub_node_idx b
        (⟨bb.minX + bb.width / 2, bb.minY + bb.height / 2⟩ : QPoint)
    · by_cases hc : rect_in_rect tl.bounds bb
      · obtain ⟨v, hv, pv⟩ := ihtl hAtl
        refine ⟨BNode.split b dep maxD maxC cs stk v tr br bl,
          by simp [BNode.insert, hbb, hfs, hx, hc, hv, Except.map], ?_⟩
        simp only [BNode.data]
        exact ((pv.append_right _).append_left _).trans List.perm_middle
      · refine ⟨BNode.split b dep maxD maxC cs (stk ++ [d]) tl tr br bl,
          by simp [BNode.insert, hbb, hfs, hx, hc], ?_⟩
        simp only [BNode.data]
        have he : (cs ++ (stk ++ [d])) ++ (tl.data ++ (tr.data ++ (br.data ++ bl.data)))
            = (cs ++ stk) ++ (d :: (tl.data ++ (tr.data ++ (br.data ++ bl.data)))) := by
          rw [← List.append_assoc cs stk [d], List.append_assoc (cs ++ stk)]
          rfl
        rw [he]
        exact List.perm_middle
    · by_cases hc : rect_in_rect tr.bounds bb
      · obtain ⟨v, hv, pv⟩ := ihtr hAtr
        refine ⟨BNode.split b dep maxD maxC cs stk tl v br bl,
          by simp [BNode.insert, hbb, hfs, hx, hc, hv, Except.map], ?_⟩
        simp only [BNode.data]
        exact (((pv.append_right _).append_left _).append_left _).trans
          ((List.perm_middle.append_left _).trans List.perm_middle)
      · refine ⟨BNode.split b dep maxD maxC cs (stk ++ [d]) tl tr br bl,
          by simp [BNode.insert, hbb, hfs, hx, hc], ?_⟩
        simp only [BNode.data]
        have he : (cs ++ (stk ++ [d])) ++ (tl.data ++ (tr.data ++ (br.data ++ bl.data)))
            = (cs ++ stk) ++ (d :: (tl.data ++ (tr.data ++ (br.data ++ bl.data)))) := by
          rw [← List.append_assoc cs stk [d], List.append_assoc (cs ++ stk)]
          rfl
        rw [he]
        exact List.perm_middle
    · by_cases hc : rect_in_rect br.bounds bb
      · obtain ⟨v, hv, pv⟩ := ihbr hAbr
        refine ⟨BNode.split b dep maxD maxC cs stk tl tr v bl,
          by simp [BNode.insert, hbb, hfs, hx, hc, hv, Except.map], ?_⟩
        simp only [BNode.data]
        exact ((((pv.append_right _).append_left _).append_left _).append_left _).trans
          (((List.perm_middle.append_left _).append_left _).trans
            ((List.perm_middle.append_left _).trans List.perm_middle))
      · refine ⟨BNode.split b dep maxD maxC cs (stk ++ [d]) tl tr br bl,
          by simp [BNode.insert, hbb, hfs, hx, hc], ?_⟩
        simp only [BNode.data]
        have he : (cs ++ (stk ++ [d])) ++ (tl.data ++ (tr.data ++ (br.data ++ bl.data)))
            = (cs ++ stk) ++ (d :: (tl.data ++ (tr.data ++ (br.data ++ bl.data)))) := by
          rw [← List.append_assoc cs stk [d], List.append_assoc (cs ++ stk)]
          rfl
        rw [he]
        exact List.perm_middle
    · by_cases hc : rect_in_rect bl.bounds bb
      · obtain ⟨v, hv, pv⟩ := ihbl hAbl
        refine ⟨BNode.split b dep maxD maxC cs stk tl tr br v,
          by simp [BNode.insert, hbb, hfs, hx, hc, hv, Except.map], ?_⟩
        simp only [BNode.data]
        exact (((((pv.append_left _).append_left _).append_left _).append_left _)).trans
          ((((List.perm_middle.append_left _).append_left _).append_left _).trans
            ((((List.perm_middle.append_left _).append_left _).trans
              ((List.perm_middle.append_left _).trans List.perm_middle))))
      · refine ⟨BNode.split b dep maxD maxC cs (stk ++ [d]) tl tr br bl,
          by simp [BNode.insert, hbb, hfs, hx, hc], ?_⟩
        simp only [BNode.data]
        have he : (cs ++ (stk ++ [d])) ++ (tl.data ++ (tr.data ++ (br.data ++ bl.data)))
            = (cs ++ stk) ++ (d :: (tl.data ++ (tr.data ++ (br.data ++ bl.data)))) := by
          rw [← List.append_assoc cs stk [d], List.append_assoc (cs ++ stk)]
          rfl
        rw [he]
        exact List.perm_middle

end BoundsLemmas

/-! ## Tree-level lemmas -/

section TreeLemmas

variable {D : Type} (asPoint : D → QPoint) (bboxOf : D → Option QRect)

theorem pTreeInsert_inside (t : PTree D) (d : D)
    (h : pt_in_rect t.root.bounds (asPoint d)) :
    ∃ r, PTree.insert asPoint t d = (⟨r, t.size + 1⟩, none) ∧
      r.data.Perm (d :: t.root.data) := by
  obtain ⟨r, hr⟩ := pInsert_ok asPoint t.root d
  exact ⟨r, by simp [PTree.insert, h, hr], pInsert_data asPoint t.root d r hr⟩

theorem pTreeInsert_outside (t : PTree D) (d : D)
    (h : ¬ pt_in_rect t.root.bounds (asPoint d)) :
    PTree.insert asPoint t d = (t, some .OutOfBounds) := by
  simp [PTree.insert, h]

theorem bTreeInsert_ok (t : BTree D) (d : D) (db : QRect) (hdb : bboxOf d = some db)
    (hin : rect_in_rect t.root.bounds db) (hA : AllBbox bboxOf t.root) :
    ∃ r, BTree.insert bboxOf t d = (⟨r, t.size + 1⟩, none) ∧
      r.data.Perm (d :: t.root.data) := by
  obtain ⟨r, hr, pr⟩ := bInsert_ok_data bboxOf t.root d hA (by simp [hdb])
  exact ⟨r, by simp [BTree.insert, hdb, hin, hr], pr⟩

end TreeLemmas

/-- C10: in the point variant, `datum_position` returns `Some` for every
datum, hence `find_sub_node` always selects a quadrant, the
`CannotFindSubNode` error branch of `PointNode::insert` is unreachable
(node-level insert always succeeds, so neither insert nor retrieve can
ever produce `Err(CannotFindSubNode)`), and an in-bounds insert into a
point tree always succeeds. -/
theorem C10_point_insert_never_cannot_find_sub_node {D : Type} (asPoint : D → QPoint) :
    (∀ d : D, pDatumPosition asPoint d = some (asPoint d)) ∧
    (∀ (b : QRect) (d : D), pFindSubNode asPoint b d = some (find_sub_node_idx b (asPoint d))) ∧
    (∀ (n : PNode D) (d : D), ∃ n', n.insert asPoint d = .ok n') ∧
    (∀ (t : PTree D) (d : D), pt_in_rect t.root.bounds (asPoint d) →
      (PTree.insert asPoint t d).2 = none) := by
  refine ⟨fun _ => rfl, fun _ _ => rfl, pInsert_ok asPoint, fun t d h => ?_⟩
  obtain ⟨r, hr, _⟩ := pTreeInsert_inside asPoint t d h
  simp [hr]

unseal Rat.add Rat.mul Rat.sub Rat.inv in
/-- Witness for C10 at a concrete in-bounds insert. -/
theorem C10_point_insert_never_cannot_find_sub_node_witness :
    pt_in_rect ⟨0, 0, 1, 1⟩ ⟨0, 0⟩ ∧
    (PTree.insert (fun p : QPoint => p) (PTree.new ⟨0, 0, 1, 1⟩ 4 4) ⟨0, 0⟩).2 = none :=
  ⟨by decide,
    (C10_point_insert_never_cannot_find_sub_node (fun p : QPoint => p)).2.2.2
      (PTree.new ⟨0, 0, 1, 1⟩ 4 4) ⟨0, 0⟩ (by decide)⟩

/-- C8: for every datum of a point tree, `insert` returns
`Err(OutOfBounds)` exactly when the datum's point lies outside the root
bounds, where points on the root boundary (coordinates satisfying the
closed inequalities) count as in bounds; every successful insert
increments `size` by exactly one, and out-of-bounds is the only
possible failure. -/
theorem C8_point_insert_out_of_bounds {D : Type} (asPoint : D → QPoint)
    (t : PTree D) (d : D) :
    (¬ (t.root.bounds.minX ≤ (asPoint d).x ∧ (asPoint d).x ≤ t.root.bounds.maxX ∧
        t.root.bounds.minY ≤ (asPoint d).y ∧ (asPoint d).y ≤ t.root.bounds.maxY) →
      PTree.insert asPoint t d = (t, some .OutOfBounds)) ∧
    ((t.root.bounds.minX ≤ (asPoint d).x ∧ (asPoint d).x ≤ t.root.bounds.maxX ∧
        t.root.bounds.minY ≤ (asPoint d).y ∧ (asPoint d).y ≤ t.root.bounds.maxY) →
      ∃ r, PTree.insert asPoint t d = (⟨r, t.size + 1⟩, none)) := by
  constructor
  · intro h
    exact pTreeInsert_outside asPoint t d h
  · intro h
    obtain ⟨r, hr, _⟩ := pTreeInsert_inside asPoint t d h
    exact ⟨r, hr⟩

unseal Rat.add Rat.mul Rat.sub Rat.inv in
/-- Witness for C8: a boundary point is accepted (size 0 → 1), a point
outside is rejected with `OutOfBounds`. -/
theorem C8_point_insert_out_of_bounds_witness :
    ((1 : ℚ) ≤ 1 ∧
      (PTree.insert (fun p : QPoint => p) (PTree.new ⟨0, 0, 1, 1⟩ 4 4) ⟨1, 1⟩).1.size = 1) ∧
    (¬ ((0 : ℚ) ≤ 2 ∧ (2 : ℚ) ≤ 1 ∧ (0 : ℚ) ≤ 2 ∧ (2 : ℚ) ≤ 1) ∧
      PTree.insert (fun p : QPoint => p) (PTree.new ⟨0, 0, 1, 1⟩ 4 4) ⟨2, 2⟩ =
        (PTree.new ⟨0, 0, 1, 1⟩ 4 4, some .OutOfBounds)) := by
  constructor
  · refine ⟨le_refl 1, ?_⟩
    obtain ⟨r, hr⟩ :=
      (C8_point_insert_out_of_bounds (fun p : QPoint => p)
        (PTree.new ⟨0, 0, 1, 1⟩ 4 4) ⟨1, 1⟩).2 (by decide)
    rw [hr]
    rfl
  · exact ⟨by decide,
      (C8_point_insert_out_of_bounds (fun p : QPoint => p)
        (PTree.new ⟨0, 0, 1, 1⟩ 4 4) ⟨2, 2⟩).1 (by decide)⟩

/-- C3: insertion is atomic per call on both variants.  On `Ok` the new
datum is stored (the stored multiset grows by exactly that datum) and
the size counter is incremented by exactly one; on `Err` the tree --
root node structure, all sub-node arrays, children, stuck children and
the size counter -- is returned exactly as it was.  For the bounds
variant the success case assumes what the public API guarantees for
every reachable tree: every stored datum has a bounding box. -/
theorem C3_insert_atomic {D : Type} (asPoint : D → QPoint) (bboxOf : D → Option QRect) :
    (∀ (t : PTree D) (d : D),
      (pt_in_rect t.root.bounds (asPoint d) →
        ∃ r, PTree.insert asPoint t d = (⟨r, t.size + 1⟩, none) ∧
          r.data.Perm (d :: t.root.data)) ∧
      (¬ pt_in_rect t.root.bounds (asPoint d) →
        PTree.insert asPoint t d = (t, some .OutOfBounds))) ∧
    (∀ (t : BTree D) (d : D),
      (bboxOf d = none → BTree.insert bboxOf t d = (t, some .CannotMakeBbox)) ∧
      (∀ db, bboxOf d = some db → ¬ rect_in_rect t.root.bounds db →
        BTree.insert bboxOf t d = (t, some .OutOfBounds)) ∧
      (∀ db, bboxOf d = some db → rect_in_rect t.root.bounds db →
        AllBbox bboxOf t.root →
        ∃ r, BTree.insert bboxOf t d = (⟨r, t.size + 1⟩, none) ∧
          r.data.Perm (d :: t.root.data))) := by
  refine ⟨fun t d => ⟨pTreeInsert_inside asPoint t d, pTreeInsert_outside asPoint t d⟩,
    fun t d => ⟨fun h => by simp [BTree.insert, h], fun db hdb hout => ?_,
      fun db hdb hin hA => bTreeInsert_ok bboxOf t d db hdb hin hA⟩⟩
  simp [BTree.insert, hdb, hout]

/-- With a valid parent rect, the four rects allocated by `subdivide`
are exactly the tiling [TL, TR, BR, BL] of the claim (the `Rect::new`
normalisation is the identity), and each is valid. -/
theorem quadrantRect_eq (b : QRect) (hb : ValidRect b) :
    (quadrantRect b .topLeft = ⟨b.minX, b.minY, midX b, midY b⟩ ∧
     quadrantRect b .topRight = ⟨midX b, b.minY, b.maxX, midY b⟩ ∧
     quadrantRect b .bottomRight = ⟨midX b, midY b, b.maxX, b.maxY⟩ ∧
     quadrantRect b .bottomLeft = ⟨b.minX, midY b, midX b, b.maxY⟩) ∧
    (∀ sn, ValidRect (quadrantRect b sn)) := by
  obtain ⟨hx, hy⟩ := hb
  have h1 : b.minX ≤ b.minX + b.width / 2 := by unfold QRect.width; linarith
  have h2 : b.minX + b.width / 2 ≤ b.maxX := by unfold QRect.width; linarith
  have h3 : b.minY ≤ b.minY + b.height / 2 := by unfold QRect.height; linarith
  have h4 : b.minY + b.height / 2 ≤ b.maxY := by unfold QRect.height; linarith
  have e1 : quadrantRect b .topLeft = ⟨b.minX, b.minY, midX b, midY b⟩ := by
    simp [quadrantRect, mkRect, midX, midY]
    and_intros <;> linarith
  have e2 : quadrantRect b .topRight = ⟨midX b, b.minY, b.maxX, midY b⟩ := by
    simp [quadrantRect, mkRect, midX, midY]
    and_intros <;> linarith
  have e3 : quadrantRect b .bottomRight = ⟨midX b, midY b, b.maxX, b.maxY⟩ := by
    simp [quadrantRect, mkRect, midX, midY]
    and_intros <;> linarith
  have e4 : quadrantRect b .bottomLeft = ⟨b.minX, midY b, midX b, b.maxY⟩ := by
    simp [quadrantRect, mkRect, midX, midY]
    and_intros <;> linarith
  refine ⟨⟨e1, e2, e3, e4⟩, fun sn => ?_⟩
  cases sn
  · rw [e1]; exact ⟨h1, h3⟩
  · rw [e2]; exact ⟨h2, h3⟩
  · rw [e3]; exact ⟨h2, h4⟩
  · rw [e4]; exact ⟨h1, h4⟩

section SubOkLemmas

variable {D : Type} (asPoint : D → QPoint) (bboxOf : D → Option QRect)

theorem pDistribute_subok (budget : Nat) (b : QRect) (dep maxD maxC : Nat) (L : List D)
    (hb : ValidRect b) :
    (pDistribute asPoint budget b dep maxD maxC L).ValidBounds ∧
    (pDistribute asPoint budget b dep maxD maxC L).SubOk := by
  induction budget generalizing b dep L with
  | zero => exact ⟨hb, trivial⟩
  | succ n ih =>
    by_cases h : L.length ≤ maxC
    · simp only [pDistribute, h, if_true]
      exact ⟨hb, trivial⟩
    · simp only [pDistribute, h, if_false]
      obtain ⟨⟨e1, e2, e3, e4⟩, hval⟩ := quadrantRect_eq b hb
      obtain ⟨vtl, stl⟩ := ih (quadrantRect b .topLeft) (dep + 1) _ (hval .topLeft)
      obtain ⟨vtr, str⟩ := ih (quadrantRect b .topRight) (dep + 1) _ (hval .topRight)
      obtain ⟨vbr, sbr⟩ := ih (quadrantRect b .bottomRight) (dep + 1) _ (hval .bottomRight)
      obtain ⟨vbl, sbl⟩ := ih (quadrantRect b .bottomLeft) (dep + 1) _ (hval .bottomLeft)
      refine ⟨⟨hb, vtl, vtr, vbr, vbl⟩, ?_⟩
      obtain ⟨btl, dtl, mtl, ctl⟩ := pDistribute_fields asPoint n (quadrantRect b .topLeft)
        (dep + 1) maxD maxC
        (L.filter fun d => find_sub_node_idx b (asPoint d) == SubNode.topLeft)
      obtain ⟨btr, dtr, mtr, ctr⟩ := pDistribute_fields asPoint n (quadrantRect b .topRight)
        (dep + 1) maxD maxC
        (L.filter fun d => find_sub_node_idx b (asPoint d) == SubNode.topRight)
      obtain ⟨bbr, dbr, mbr, cbr⟩ := pDistribute_fields asPoint n (quadrantRect b .bottomRight)
        (dep + 1) maxD maxC
        (L.filter fun d => find_sub_node_idx b (asPoint d) == SubNode.bottomRight)
      obtain ⟨bbl, dbl, mbl, cbl⟩ := pDistribute_fields asPoint n (quadrantRect b .bottomLeft)
        (dep + 1) maxD maxC
        (L.filter fun d => find_sub_node_idx b (asPoint d) == SubNode.bottomLeft)
      exact ⟨⟨btl.trans e1, btr.trans e2, bbr.trans e3, bbl.trans e4⟩,
        ⟨dtl, dtr, dbr, dbl⟩, ⟨mtl, mtr, mbr, mbl⟩, ⟨ctl, ctr, cbr, cbl⟩,
        stl, str, sbr, sbl⟩

/-- A successful `PointNode::insert` preserves valid bounds and the C4
subdivision invariant. -/
theorem pInsert_subok (n : PNode D) (d : D) (n' : PNode D)
    (h : n.insert asPoint d = .ok n')
    (hv : n.ValidBounds) (hs : n.SubOk) :
    n'.ValidBounds ∧ n'.SubOk := by
  induction n generalizing n' with
  | leaf b dep maxD maxC cs =>
    simp only [PNode.insert] at h
    split at h
    · cases h
      exact pDistribute_subok asPoint _ b dep maxD maxC _ hv
    · cases h
      exact ⟨hv, trivial⟩
  | split b dep maxD maxC cs tl tr br bl ihtl ihtr ihbr ihbl =>
    obtain ⟨hvb, hvtl, hvtr, hvbr, hvbl⟩ := hv
    obtain ⟨hbnd, hdep, hmd, hmc, hstl, hstr, hsbr, hsbl⟩ := hs
    cases hx : find_sub_node_idx b (asPoint d) <;>
      simp only [PNode.insert, pFindSubNode_eq, hx] at h
    · cases hsub : tl.insert asPoint d <;> simp [hsub, Except.map] at h
      cases h
      obtain ⟨hv', hs'⟩ := ihtl _ hsub hvtl hstl
      obtain ⟨hb', hd', hm', hc'⟩ := pInsert_fields asPoint tl d _ hsub
      exact ⟨⟨hvb, hv', hvtr, hvbr, hvbl⟩,
        ⟨hb'.trans hbnd.1, hbnd.2.1, hbnd.2.2.1, hbnd.2.2.2⟩,
        ⟨hd'.trans hdep.1, hdep.2.1, hdep.2.2.1, hdep.2.2.2⟩,
        ⟨hm'.trans hmd.1, hmd.2.1, hmd.2.2.1, hmd.2.2.2⟩,
        ⟨hc'.trans hmc.1, hmc.2.1, hmc.2.2.1, hmc.2.2.2⟩,
        hs', hstr, hsbr, hsbl⟩
    · cases hsub : tr.insert asPoint d <;> simp [hsub, Except.map] at h
      cases h
      obtain ⟨hv', hs'⟩ := ihtr _ hsub hvtr hstr
      obtain ⟨hb', hd', hm', hc'⟩ := pInsert_fields asPoint tr d _ hsub
      exact ⟨⟨hvb, hvtl, hv', hvbr, hvbl⟩,
        ⟨hbnd.1, hb'.trans hbnd.2.1, hbnd.2.2.1, hbnd.2.2.2⟩,
        ⟨hdep.1, hd'.trans hdep.2.1, hdep.2.2.1, hdep.2.2.2⟩,
        ⟨hmd.1, hm'.trans hmd.2.1, hmd.2.2.1, hmd.2.2.2⟩,
        ⟨hmc.1, hc'.trans hmc.2.1, hmc.2.2.1, hmc.2.2.2⟩,
        hstl, hs', hsbr, hsbl⟩
    · cases hsub : br.insert asPoint d <;> simp [hsub, Except.map] at h
      cases h
      obtain ⟨hv', hs'⟩ := ihbr _ hsub hvbr hsbr
      obtain ⟨hb', hd', hm', hc'⟩ := pInsert_fields asPoint br d _ hsub
      exact ⟨⟨hvb, hvtl, hvtr, hv', hvbl⟩,
        ⟨hbnd.1, hbnd.2.1, hb'.trans hbnd.2.2.1, hbnd.2.2.2⟩,
        ⟨hdep.1, hdep.2.1, hd'.trans hdep.2.2.1, hdep.2.2.2⟩,
        ⟨hmd.1, hmd.2.1, hm'.trans hmd.2.2.1, hmd.2.2.2⟩,
        ⟨hmc.1, hmc.2.1, hc'.trans hmc.2.2.1, hmc.2.2.2⟩,
        hstl, hstr, hs', hsbl⟩
    · cases hsub : bl.insert asPoint d <;> simp [hsub, Except.map] at h
      cases h
      obtain ⟨hv', hs'⟩ := ihbl _ hsub hvbl hsbl
      obtain ⟨hb', hd', hm', hc'⟩ := pInsert_fields asPoint bl d _ hsub
      exact ⟨⟨hvb, hvtl, hvtr, hvbr, hv'⟩,
        ⟨hbnd.1, hbnd.2.1, hbnd.2.2.1, hb'.trans hbnd.2.2.2⟩,
        ⟨hdep.1, hdep.2.1, hdep.2.2.1, hd'.trans hdep.2.2.2⟩,
        ⟨hmd.1, hmd.2.1, hmd.2.2.1, hm'.trans hmd.2.2.2⟩,
        ⟨hmc.1, hmc.2.1, hmc.2.2.1, hc'.trans hmc.2.2.2⟩,
        hstl, hstr, hsbr, hs'⟩

theorem bDistribute_subok (budget : Nat) (b : QRect) (dep maxD maxC : Nat)
    (st L : List D) (n' : BNode D)
    (h : bDistribute bboxOf budget b dep maxD maxC st L = .ok n') (hb : ValidRect b) :
    n'.ValidBounds ∧ n'.SubOk := by
  induction budget generalizing b dep st L n' with
  | zero =>
    simp only [bDistribute] at h
    cases h
    exact ⟨hb, trivial⟩
  | succ n ih =>
    simp only [bDistribute] at h
    split at h
    · cases h
      exact ⟨hb, trivial⟩
    · split at h
      · obtain ⟨vtl, htl, h⟩ := except_bind_ok h
        obtain ⟨vtr, htr, h⟩ := except_bind_ok h
        obtain ⟨vbr, hbr, h⟩ := except_bind_ok h
        obtain ⟨vbl, hbl, h⟩ := except_bind_ok h
        cases h
        obtain ⟨⟨e1, e2, e3, e4⟩, hval⟩ := quadrantRect_eq b hb
        obtain ⟨v1, s1⟩ := ih _ _ _ _ _ htl (hval .topLeft)
        obtain ⟨v2, s2⟩ := ih _ _ _ _ _ htr (hval .topRight)
        obtain ⟨v3, s3⟩ := ih _ _ _ _ _ hbr (hval .bottomRight)
        obtain ⟨v4, s4⟩ := ih _ _ _ _ _ hbl (hval .bottomLeft)
        obtain ⟨b1, d1, m1, c1⟩ := bDistribute_fields bboxOf _ _ _ _ _ _ _ _ htl
        obtain ⟨b2, d2, m2, c2⟩ := bDistribute_fields bboxOf _ _ _ _ _ _ _ _ htr
        obtain ⟨b3, d3, m3, c3⟩ := bDistribute_fields bboxOf _ _ _ _ _ _ _ _ hbr
        obtain ⟨b4, d4, m4, c4⟩ := bDistribute_fields bboxOf _ _ _ _ _ _ _ _ hbl
        exact ⟨⟨hb, v1, v2, v3, v4⟩,
          ⟨b1.trans e1, b2.trans e2, b3.trans e3, b4.trans e4⟩,
          ⟨d1, d2, d3, d4⟩, ⟨m1, m2, m3, m4⟩, ⟨c1, c2, c3, c4⟩, s1, s2, s3, s4⟩
      · simp at h

/-- A successful `BoundsNode::insert` preserves valid bounds and the C4
subdivision invariant. -/
theorem bInsert_subok (n : BNode D) (d : D) (n' : BNode D)
    (h : n.insert bboxOf d = .ok n')
    (hv : n.ValidBounds) (hs : n.SubOk) :
    n'.ValidBounds ∧ n'.SubOk := by
  induction n generalizing n' with
  | leaf b dep maxD maxC cs stk =>
    simp only [BNode.insert] at h
    split at h
    · exact bDistribute_subok bboxOf _ _ _ _ _ _ _ _ h hv
    · cases h
      exact ⟨hv, trivial⟩
  | split b dep maxD maxC cs stk tl tr br bl ihtl ihtr ihbr ihbl =>
    obtain ⟨hvb, hvtl, hvtr, hvbr, hvbl⟩ := hv
    obtain ⟨hbnd, hdep, hmd, hmc, hstl, hstr, hsbr, hsbl⟩ := hs
    cases hbb : bboxOf d with
    | none => simp [BNode.insert, hbb] at h
    | some bb =>
      have hfs : bFindSubNode bboxOf b d =
          some (find_sub_node_idx b ⟨bb.minX + bb.width / 2, bb.minY + bb.height / 2⟩) := by
        simp [bFindSubNode, bDatumPosition, hbb]
      cases hx : find_sub_node_idx b
          (⟨bb.minX + bb.width / 2, bb.minY + bb.height / 2⟩ : QPoint) <;>
        simp only [BNode.insert, hbb, hfs, hx] at h
      · split at h
        · cases hsub : tl.insert bboxOf d <;> simp [hsub, Except.map] at h
          cases h
          obtain ⟨hv', hs'⟩ := ihtl _ hsub hvtl hstl
          obtain ⟨hb', hd', hm', hc'⟩ := bInsert_fields bboxOf tl d _ hsub
          exact ⟨⟨hvb, hv', hvtr, hvbr, hvbl⟩,
            ⟨hb'.trans hbnd.1, hbnd.2.1, hbnd.2.2.1, hbnd.2.2.2⟩,
            ⟨hd'.trans hdep.1, hdep.2.1, hdep.2.2.1, hdep.2.2.2⟩,
            ⟨hm'.trans hmd.1, hmd.2.1, hmd.2.2.1, hmd.2.2.2⟩,
            ⟨hc'.trans hmc.1, hmc.2.1, hmc.2.2.1, hmc.2.2.2⟩,
            hs', hstr, hsbr, hsbl⟩
        · cases h
          exact ⟨⟨hvb, hvtl, hvtr, hvbr, hvbl⟩,
            hbnd, hdep, hmd, hmc, hstl, hstr, hsbr, hsbl⟩
      · split at h
        · cases hsub : tr.insert bboxOf d <;> simp [hsub, Except.map] at h
          cases h
          obtain ⟨hv', hs'⟩ := ihtr _ hsub hvtr hstr
          obtain ⟨hb', hd', hm', hc'⟩ := bInsert_fields bboxOf tr d _ hsub
          exact ⟨⟨hvb, hvtl, hv', hvbr, hvbl⟩,
            ⟨hbnd.1, hb'.trans hbnd.2.1, hbnd.2.2.1, hbnd.2.2.2⟩,
            ⟨hdep.1, hd'.trans hdep.2.1, hdep.2.2.1, hdep.2.2.2⟩,
            ⟨hmd.1, hm'.trans hmd.2.1, hmd.2.2.1, hmd.2.2.2⟩,
            ⟨hmc.1, hc'.trans hmc.2.1, hmc.2.2.1, hmc.2.2.2⟩,
            hstl, hs', hsbr, hsbl⟩
        · cases h
          exact ⟨⟨hvb, hvtl, hvtr, hvbr, hvbl⟩,
            hbnd, hdep, hmd, hmc, hstl, hstr, hsbr, hsbl⟩
      · split at h
        · cases hsub : br.insert bboxOf d <;> simp [hsub, Except.map] at h
          cases h
          obtain ⟨hv', hs'⟩ := ihbr _ hsub hvbr hsbr
          obtain ⟨hb', hd', hm', hc'⟩ := bInsert_fields bboxOf br d _ hsub
          exact ⟨⟨hvb, hvtl, hvtr, hv', hvbl⟩,
            ⟨hbnd.1, hbnd.2.1, hb'.trans hbnd.2.2.1, hbnd.2.2.2⟩,
            ⟨hdep.1, hdep.2.1, hd'.trans hdep.2.2.1, hdep.2.2.2⟩,
            ⟨hmd.1, hmd.2.1, hm'.trans hmd.2.2.1, hmd.2.2.2⟩,
            ⟨hmc.1, hmc.2.1, hc'.trans hmc.2.2.1, hmc.2.2.2⟩,
            hstl, hstr, hs', hsbl⟩
        · cases h
          exact ⟨⟨hvb, hvtl, hvtr, hvbr, hvbl⟩,
            hbnd, hdep, hmd, hmc, hstl, hstr, hsbr, hsbl⟩
      · split at h
        · cases hsub : bl.insert bboxOf d <;> simp [hsub, Except.map] at h
          cases h
          obtain ⟨hv', hs'⟩ := ihbl _ hsub hvbl hsbl
          obtain ⟨hb', hd', hm', hc'⟩ := bInsert_fields bboxOf bl d _ hsub
          exact ⟨⟨hvb, hvtl, hvtr, hvbr, hv'⟩,
            ⟨hbnd.1, hbnd.2.1, hbnd.2.2.1, hb'.trans hbnd.2.2.2⟩,
            ⟨hdep.1, hdep.2.1, hdep.2.2.1, hd'.trans hdep.2.2.2⟩,
            ⟨hmd.1, hmd.2.1, hmd.2.2.1, hm'.trans hmd.2.2.2⟩,
            ⟨hmc.1, hmc.2.1, hmc.2.2.1, hc'.trans hmc.2.2.2⟩,
            hstl, hstr, hsbr, hs'⟩
        · cases h
          exact ⟨⟨hvb, hvtl, hvtr, hvbr, hvbl⟩,
            hbnd, hdep, hmd, hmc, hstl, hstr, hsbr, hsbl⟩

/-- Every reachable point tree satisfies valid bounds and the C4
invariant. -/
theorem pReach_subok (t : PTree D) (h : PReach asPoint t) :
    t.root.ValidBounds ∧ t.root.SubOk := by
  induction h with
  | new b maxD maxC hb => exact ⟨hb, trivial⟩
  | ins t d hR hok ih =>
    by_cases hin : pt_in_rect t.root.bounds (asPoint d)
    · obtain ⟨r, hr⟩ := pInsert_ok asPoint t.root d
      have hroot : (PTree.insert asPoint t d).1.root = r := by
        simp [PTree.insert, hin, hr]
      rw [hroot]
      exact pInsert_subok asPoint t.root d r hr ih.1 ih.2
    · rw [pTreeInsert_outside asPoint t d hin]
      exact ih

/-- Every reachable bounds tree satisfies valid bounds and the C4
invariant. -/
theorem bReach_subok (t : BTree D) (h : BReach bboxOf t) :
    t.root.ValidBounds ∧ t.root.SubOk := by
  induction h with
  | new b maxD maxC hb => exact ⟨hb, trivial⟩
  | ins t d hR hok ih =>
    cases hbb : bboxOf d with
    | none => simp [BTree.insert, hbb] at hok
    | some db =>
      by_cases hin : rect_in_rect t.root.bounds db
      · cases hr : t.root.insert bboxOf d with
        | error e => simp [BTree.insert, hbb, hin, hr] at hok
        | ok r =>
          have hroot : (BTree.insert bboxOf t d).1.root = r := by
            simp [BTree.insert, hbb, hin, hr]
          rw [hroot]
          exact bInsert_subok bboxOf t.root d r hr ih.1 ih.2
      · have : BTree.insert bboxOf t d = (t, some .OutOfBounds) := by
          simp [BTree.insert, hbb, hin]
        rw [this]
        exact ih

end SubOkLemmas

/-!
## `find_r` specification lemmas (C1)
-/

section FindLemmas

variable {D : Type} (bboxOf : D → Option QRect)
variable (dB : QRect → Except Error ℚ) (dG : D → Except Error ℚ)

theorem pChildScan_spec (cs : List D) (s : ℚ × Option D)
    (hcs : ∀ c ∈ cs, ∃ g, dG c = .ok g) (hP : FindInv dG s) :
    ∃ s', pChildScan dG cs s = .ok s' ∧ s'.1 ≤ s.1 ∧ FindInv dG s' ∧
      ∀ c ∈ cs, ∃ g, dG c = .ok g ∧ s'.1 ≤ g := by
  induction cs generalizing s with
  | nil => exact ⟨s, by simp [pChildScan, Bind.bind, Except.bind, Pure.pure, Except.pure], le_refl _, hP, by simp⟩
  | cons c rest ih =>
    obtain ⟨g, hg⟩ := hcs c (by simp)
    by_cases hle : g ≤ s.1
    · have hPnew : FindInv dG (g, some c) := by
        intro x hx
        simp at hx
        subst hx
        exact hg
      obtain ⟨s', hs', hmono, hPs', hcov⟩ :=
        ih (g, some c) (fun x hx => hcs x (by simp [hx])) hPnew
      refine ⟨s', ?_, le_trans hmono hle, hPs', ?_⟩
      · simp [pChildScan, pChildStep, hg, hle, Bind.bind, Except.bind, Pure.pure, Except.pure] at hs' ⊢
        exact hs'
      · intro x hx
        rcases List.mem_cons.mp hx with hx | hx
        · exact hx ▸ ⟨g, hg, hmono⟩
        · exact hcov x hx
    · obtain ⟨s', hs', hmono, hPs', hcov⟩ :=
        ih s (fun x hx => hcs x (by simp [hx])) hP
      refine ⟨s', ?_, hmono, hPs', ?_⟩
      · simp [pChildScan, pChildStep, hg, hle, Bind.bind, Except.bind, Pure.pure, Except.pure] at hs' ⊢
        exact hs'
      · intro x hx
        rcases List.mem_cons.mp hx with hx | hx
        · exact hx ▸ ⟨g, hg, le_of_lt (lt_of_le_of_lt hmono (lt_of_not_le hle))⟩
        · exact hcov x hx

theorem pFindAux_spec (n : PNode D) (s : ℚ × Option D)
    (hH : PFindHyp dB dG n) (hP : FindInv dG s) :
    ∃ s', pFindAux dB dG n s = .ok s' ∧ s'.1 ≤ s.1 ∧ FindInv dG s' ∧
      ∀ x ∈ n.data, ∃ g, dG x = .ok g ∧ s'.1 ≤ g := by
  induction n generalizing s with
  | leaf b dep maxD maxC cs =>
    obtain ⟨bd, hbd, hchild⟩ := hH
    by_cases hskip : s.1 ≤ bd
    · exact ⟨s, by simp [pFindAux, hbd, hskip, Bind.bind, Except.bind, Pure.pure, Except.pure], le_refl _, hP,
        fun x hx => (hchild x hx).imp fun g hg => ⟨hg.1, le_trans hskip hg.2⟩⟩
    · obtain ⟨s', hs', hmono, hPs', hcov⟩ := pChildScan_spec dG cs s
        (fun c hc => (hchild c hc).imp fun g hg => hg.1) hP
      exact ⟨s', by simp [pFindAux, hbd, hskip, hs', Bind.bind, Except.bind, Pure.pure, Except.pure], hmono, hPs', hcov⟩
  | split b dep maxD maxC cs tl tr br bl ihtl ihtr ihbr ihbl =>
    obtain ⟨⟨bd, hbd, hdata⟩, Htl, Htr, Hbr, Hbl⟩ := hH
    by_cases hskip : s.1 ≤ bd
    · exact ⟨s, by simp [pFindAux, hbd, hskip, Bind.bind, Except.bind, Pure.pure, Except.pure], le_refl _, hP,
        fun x hx => (hdata x hx).imp fun g hg => ⟨hg.1, le_trans hskip hg.2⟩⟩
    · obtain ⟨s1, hs1, m1, P1, cov1⟩ := pChildScan_spec dG cs s
        (fun c hc => (hdata c (by simp [PNode.data, hc])).imp fun g hg => hg.1) hP
      obtain ⟨s2, hs2, m2, P2, cov2⟩ := ihtl s1 Htl P1
      obtain ⟨s3, hs3, m3, P3, cov3⟩ := ihtr s2 Htr P2
      obtain ⟨s4, hs4, m4, P4, cov4⟩ := ihbr s3 Hbr P3
      obtain ⟨s5, hs5, m5, P5, cov5⟩ := ihbl s4 Hbl P4
      refine ⟨s5, by simp [pFindAux, hbd, hskip, hs1, hs2, hs3, hs4, hs5, Bind.bind, Except.bind, Pure.pure, Except.pure],
        le_trans m5 (le_trans m4 (le_trans m3 (le_trans m2 m1))), P5, ?_⟩
      intro x hx
      simp only [PNode.data, List.mem_append] at hx
      rcases hx with hx | hx | hx | hx | hx
      · exact (cov1 x hx).imp fun g hg =>
          ⟨hg.1, le_trans (le_trans m5 (le_trans m4 (le_trans m3 m2))) hg.2⟩
      · exact (cov2 x hx).imp fun g hg =>
          ⟨hg.1, le_trans (le_trans m5 (le_trans m4 m3)) hg.2⟩
      · exact (cov3 x hx).imp fun g hg => ⟨hg.1, le_trans (le_trans m5 m4) hg.2⟩
      · exact (cov4 x hx).imp fun g hg => ⟨hg.1, le_trans m5 hg.2⟩
      · exact (cov5 x hx).imp fun g hg => hg

/-- Specification of the point `find_r` under the metric-contract
hypothesis: an `Ok((m, δ))` result means `δ` is exactly `dist_geom(m)`
and no stored datum is closer than `δ`. -/
theorem pFindR_spec (t : PTree D) (r : ℚ) (m : D) (δ : ℚ)
    (hH : PFindHyp dB dG t.root) (h : pFindR dB dG t r = .ok (m, δ)) :
    dG m = .ok δ ∧ ∀ x ∈ t.root.data, ∃ g, dG x = .ok g ∧ δ ≤ g := by
  have hbd : ∃ bd, dB t.root.bounds = .ok bd := by
    cases t with
    | mk root size =>
      cases root with
      | leaf b dep maxD maxC cs => exact ⟨hH.choose, hH.choose_spec.1⟩
      | split b dep maxD maxC cs tl tr br bl => exact ⟨hH.1.choose, hH.1.choose_spec.1⟩
  obtain ⟨bd, hbd⟩ := hbd
  obtain ⟨s', hs', m', P', cov⟩ := pFindAux_spec dB dG t.root (r, none) hH
    (fun x hx => by simp at hx)
  by_cases h0 : bd = 0
  · by_cases hsz : t.size = 0
    · exfalso
      simp [pFindR, hbd, h0, hsz, Bind.bind, Except.bind] at h
    · cases hs2 : s'.2 with
      | none =>
        exfalso
        simp [pFindR, hbd, h0, hsz, hs', hs2, Bind.bind, Except.bind] at h
      | some m0 =>
        have hok : pFindR dB dG t r = .ok (m0, s'.1) := by
          simp [pFindR, hbd, h0, hsz, hs', hs2, Bind.bind, Except.bind, Pure.pure, Except.pure]
        rw [hok] at h
        have hp := Except.ok.inj h
        injection hp with h1 h2
        subst h1
        subst h2
        exact ⟨P' m0 hs2, cov⟩
  · exfalso
    simp [pFindR, hbd, h0, Bind.bind, Except.bind] at h

theorem bChildScan_spec (cs : List D) (s : ℚ × Option D)
    (hcs : ∀ c ∈ cs, DatumHyp bboxOf dB dG c) (hP : FindInv dG s) :
    ∃ s', bChildScan bboxOf dB dG cs s = .ok s' ∧ s'.1 ≤ s.1 ∧ FindInv dG s' ∧
      ∀ c ∈ cs, ∃ g, dG c = .ok g ∧ s'.1 ≤ g := by
  induction cs generalizing s with
  | nil =>
    exact ⟨s, by simp [bChildScan, Bind.bind, Except.bind, Pure.pure, Except.pure],
      le_refl _, hP, by simp⟩
  | cons c rest ih =>
    obtain ⟨bb, hbb, p, hp, g, hg, hpg⟩ := hcs c (by simp)
    by_cases hpre : s.1 < p
    · obtain ⟨s', hs', hmono, hPs', hcov⟩ :=
        ih s (fun x hx => hcs x (by simp [hx])) hP
      refine ⟨s', ?_, hmono, hPs', ?_⟩
      · simp [bChildScan, bChildStep, hbb, hp, hpre, Bind.bind, Except.bind, Pure.pure,
          Except.pure] at hs' ⊢
        exact hs'
      · intro x hx
        rcases List.mem_cons.mp hx with hx | hx
        · exact hx ▸ ⟨g, hg, le_of_lt (lt_of_le_of_lt hmono (lt_of_lt_of_le hpre hpg))⟩
        · exact hcov x hx
    · by_cases hle : g ≤ s.1
      · have hPnew : FindInv dG (g, some c) := by
          intro x hx
          simp at hx
          subst hx
          exact hg
        obtain ⟨s', hs', hmono, hPs', hcov⟩ :=
          ih (g, some c) (fun x hx => hcs x (by simp [hx])) hPnew
        refine ⟨s', ?_, le_trans hmono hle, hPs', ?_⟩
        · simp [bChildScan, bChildStep, hbb, hp, hpre, hg, hle, Bind.bind, Except.bind,
            Pure.pure, Except.pure] at hs' ⊢
          exact hs'
        · intro x hx
          rcases List.mem_cons.mp hx with hx | hx
          · exact hx ▸ ⟨g, hg, hmono⟩
          · exact hcov x hx
      · obtain ⟨s', hs', hmono, hPs', hcov⟩ :=
          ih s (fun x hx => hcs x (by simp [hx])) hP
        refine ⟨s', ?_, hmono, hPs', ?_⟩
        · simp [bChildScan, bChildStep, hbb, hp, hpre, hg, hle, Bind.bind, Except.bind,
            Pure.pure, Except.pure] at hs' ⊢
          exact hs'
        · intro x hx
          rcases List.mem_cons.mp hx with hx | hx
          · exact hx ▸ ⟨g, hg, le_of_lt (lt_of_le_of_lt hmono (lt_of_not_le hle))⟩
          · exact hcov x hx

theorem bFindAux_spec (n : BNode D) (s : ℚ × Option D)
    (hH : BFindHyp bboxOf dB dG n) (hP : FindInv dG s) :
    ∃ s', bFindAux bboxOf dB dG n s = .ok s' ∧ s'.1 ≤ s.1 ∧ FindInv dG s' ∧
      ∀ x ∈ n.data, ∃ g, dG x = .ok g ∧ s'.1 ≤ g := by
  induction n generalizing s with
  | leaf b dep maxD maxC cs st =>
    obtain ⟨⟨bd, hbd, hchild⟩, hdat⟩ := hH
    by_cases hskip : s.1 ≤ bd
    · exact ⟨s, by simp [bFindAux, hbd, hskip, Bind.bind, Except.bind, Pure.pure, Except.pure],
        le_refl _, hP,
        fun x hx => (hchild x hx).imp fun g hg => ⟨hg.1, le_trans hskip hg.2⟩⟩
    · obtain ⟨s', hs', hmono, hPs', hcov⟩ := bChildScan_spec bboxOf dB dG (cs ++ st) s hdat hP
      exact ⟨s', by simp [bFindAux, hbd, hskip, hs', Bind.bind, Except.bind, Pure.pure,
        Except.pure], hmono, hPs', hcov⟩
  | split b dep maxD maxC cs st tl tr br bl ihtl ihtr ihbr ihbl =>
    obtain ⟨⟨bd, hbd, hdata⟩, hdat, Htl, Htr, Hbr, Hbl⟩ := hH
    by_cases hskip : s.1 ≤ bd
    · exact ⟨s, by simp [bFindAux, hbd, hskip, Bind.bind, Except.bind, Pure.pure, Except.pure],
        le_refl _, hP,
        fun x hx => (hdata x hx).imp fun g hg => ⟨hg.1, le_trans hskip hg.2⟩⟩
    · obtain ⟨s1, hs1, m1, P1, cov1⟩ := bChildScan_spec bboxOf dB dG (cs ++ st) s hdat hP
      obtain ⟨s2, hs2, m2, P2, cov2⟩ := ihtl s1 Htl P1
      obtain ⟨s3, hs3, m3, P3, cov3⟩ := ihtr s2 Htr P2
      obtain ⟨s4, hs4, m4, P4, cov4⟩ := ihbr s3 Hbr P3
      obtain ⟨s5, hs5, m5, P5, cov5⟩ := ihbl s4 Hbl P4
      refine ⟨s5, by simp [bFindAux, hbd, hskip, hs1, hs2, hs3, hs4, hs5, Bind.bind,
          Except.bind, Pure.pure, Except.pure],
        le_trans m5 (le_trans m4 (le_trans m3 (le_trans m2 m1))), P5, ?_⟩
      intro x hx
      simp only [BNode.data, List.mem_append] at hx
      rcases hx with (hx | hx) | hx | hx | hx | hx
      · exact (cov1 x (by simp [hx])).imp fun g hg =>
          ⟨hg.1, le_trans (le_trans m5 (le_trans m4 (le_trans m3 m2))) hg.2⟩
      · exact (cov1 x (by simp [hx])).imp fun g hg =>
          ⟨hg.1, le_trans (le_trans m5 (le_trans m4 (le_trans m3 m2))) hg.2⟩
      · exact (cov2 x hx).imp fun g hg =>
          ⟨hg.1, le_trans (le_trans m5 (le_trans m4 m3)) hg.2⟩
      · exact (cov3 x hx).imp fun g hg => ⟨hg.1, le_trans (le_trans m5 m4) hg.2⟩
      · exact (cov4 x hx).imp fun g hg => ⟨hg.1, le_trans m5 hg.2⟩
      · exact (cov5 x hx).imp fun g hg => hg

/-- Specification of the bounds `find_r` under the metric-contract
hypothesis extended with the datum clause. -/
theorem bFindR_spec (t : BTree D) (r : ℚ) (m : D) (δ : ℚ)
    (hH : BFindHyp bboxOf dB dG t.root) (h : bFindR bboxOf dB dG t r = .ok (m, δ)) :
    dG m = .ok δ ∧ ∀ x ∈ t.root.data, ∃ g, dG x = .ok g ∧ δ ≤ g := by
  have hbd : ∃ bd, dB t.root.bounds = .ok bd := by
    cases t with
    | mk root size =>
      cases root with
      | leaf b dep maxD maxC cs st => exact ⟨hH.1.choose, hH.1.choose_spec.1⟩
      | split b dep maxD maxC cs st tl tr br bl => exact ⟨hH.1.choose, hH.1.choose_spec.1⟩
  obtain ⟨bd, hbd⟩ := hbd
  obtain ⟨s', hs', m', P', cov⟩ := bFindAux_spec bboxOf dB dG t.root (r, none) hH
    (fun x hx => by simp at hx)
  by_cases h0 : bd = 0
  · by_cases hsz : t.size = 0
    · exfalso
      simp [bFindR, hbd, h0, hsz, Bind.bind, Except.bind] at h
    · cases hs2 : s'.2 with
      | none =>
        exfalso
        simp [bFindR, hbd, h0, hsz, hs', hs2, Bind.bind, Except.bind] at h
      | some m0 =>
        have hok : bFindR bboxOf dB dG t r = .ok (m0, s'.1) := by
          simp [bFindR, hbd, h0, hsz, hs', hs2, Bind.bind, Except.bind, Pure.pure, Except.pure]
        rw [hok] at h
        have hp := Except.ok.inj h
        injection hp with h1 h2
        subst h1
        subst h2
        exact ⟨P' m0 hs2, cov⟩
  · exfalso
    simp [bFindR, hbd, h0, Bind.bind, Except.bind] at h

end FindLemmas

unseal Rat.add Rat.mul Rat.sub Rat.inv in
/-- C9: in a bounds tree with bounds (0,0)-(8,8), `max_depth = 2` and
`max_children = 2`, after successfully inserting B1=(1,1,2,2),
B2=(3,3,4,4), B3=(1,1,3,3), B4=(6,2,7,6), B5=(6,1,7,2), B6=(6,5,7,6) in
that order, `retrieve(Rect(1,5,2,6))` yields exactly [B4],
`retrieve(Rect(5,5,5.5,5.5))` yields exactly [B4, B6] and
`retrieve(Rect(5,3,7,5))` yields exactly [B4, B5, B6], with stuck
children emitted before the recursion into sub-nodes (B4, stuck at the
root, always comes first). -/
theorem C9_bounds_retrieve_scenario :
    (c9s1.2 = none ∧ c9s2.2 = none ∧ c9s3.2 = none ∧
     c9s4.2 = none ∧ c9s5.2 = none ∧ c9s6.2 = none) ∧
    BTree.retrieve rectBbox c9s6.1 ⟨1, 5, 2, 6⟩ = [c9B4] ∧
    BTree.retrieve rectBbox c9s6.1 ⟨5, 5, 11/2, 11/2⟩ = [c9B4, c9B6] ∧
    BTree.retrieve rectBbox c9s6.1 ⟨5, 3, 7, 5⟩ = [c9B4, c9B5, c9B6] := by
  decide

unseal Rat.add Rat.mul Rat.sub Rat.inv in
/-- Counterexample to C1 as stated: on a bounds tree reachable by two
successful inserts, with a comparator satisfying the claim's node-level
metric-contract hypothesis, `find_r` returns `Ok((cA, 5))` although the
stored datum `cB` has geometry distance 1 < 5 — the child bbox
prefilter of `BoundsQuadTree::find_r` skipped `cB` because its own bbox
distance (100, not covered by the node clause) exceeded the running
minimum. -/
theorem C1_find_r_counterexample :
    (cT0.2 = none ∧ cT1.2 = none) ∧
    BNodeOnlyHyp cdB cdG cT1.1.root ∧
    bFindR rectBbox cdB cdG cT1.1 10 = .ok (cA, 5) ∧
    cB ∈ cT1.1.root.data ∧ cdG cB = .ok 1 ∧ ¬ (5 : ℚ) ≤ 1 := by
  have hroot : cT1.1.root = BNode.leaf ⟨0, 0, 8, 8⟩ 0 4 4 [cA, cB] [] := by decide
  refine ⟨⟨by decide, by decide⟩, ?_, by decide, by decide, by decide, by decide⟩
  rw [hroot]
  refine ⟨0, by decide, ?_⟩
  intro x hx
  simp [cA, cB] at hx
  rcases hx with hx | hx
  · exact ⟨5, by subst hx; decide, by decide⟩
  · exact ⟨1, by subst hx; decide, by decide⟩

/-- C1 (amended): for every tree, comparator distance functions and
radius, if `find_r` returns `Ok((m, δ))` then `δ` is exactly the
comparator's geometry distance to `m`, and every stored datum's
geometry distance is at least `δ` — under the metric-contract
hypothesis that every node's bbox distance lower-bounds the geometry
distance of every datum stored at or below it, together with (for the
bounds variant, forced by the counterexample above) the clause that
each stored datum's own bbox distance lower-bounds its geometry
distance.  Quantifying over all trees subsumes the states reachable by
successful inserts. -/
theorem C1_find_r_optimal {D : Type} :
    (∀ (dB : QRect → Except Error ℚ) (dG : D → Except Error ℚ)
       (t : PTree D) (r : ℚ) (m : D) (δ : ℚ),
      PFindHyp dB dG t.root → pFindR dB dG t r = .ok (m, δ) →
      dG m = .ok δ ∧ ∀ x ∈ t.root.data, ∃ g, dG x = .ok g ∧ δ ≤ g) ∧
    (∀ (bboxOf : D → Option QRect) (dB : QRect → Except Error ℚ) (dG : D → Except Error ℚ)
       (t : BTree D) (r : ℚ) (m : D) (δ : ℚ),
      BFindHyp bboxOf dB dG t.root → bFindR bboxOf dB dG t r = .ok (m, δ) →
      dG m = .ok δ ∧ ∀ x ∈ t.root.data, ∃ g, dG x = .ok g ∧ δ ≤ g) :=
  ⟨fun dB dG t r m δ => pFindR_spec dB dG t r m δ,
   fun bboxOf dB dG t r m δ => bFindR_spec bboxOf dB dG t r m δ⟩

unseal Rat.add Rat.mul Rat.sub Rat.inv in
/-- Witness for C1 on a concrete one-point tree with the zero
comparator. -/
theorem C1_find_r_optimal_witness :
    PFindHyp c1wdB c1wdG c1wt.root ∧
    pFindR c1wdB c1wdG c1wt 1 = .ok (⟨0, 0⟩, 0) ∧
    (c1wdG ⟨0, 0⟩ = .ok 0 ∧
      ∀ x ∈ c1wt.root.data, ∃ g, c1wdG x = .ok g ∧ (0 : ℚ) ≤ g) := by
  have hroot : c1wt.root = PNode.leaf ⟨0, 0, 1, 1⟩ 0 4 4 [⟨0, 0⟩] := by decide
  have hH : PFindHyp c1wdB c1wdG c1wt.root := by
    rw [hroot]
    refine ⟨0, rfl, ?_⟩
    intro x hx
    exact ⟨0, rfl, le_refl 0⟩
  have heq : pFindR c1wdB c1wdG c1wt 1 = .ok (⟨0, 0⟩, 0) := by decide
  exact ⟨hH, heq, C1_find_r_optimal.1 c1wdB c1wdG c1wt 1 ⟨0, 0⟩ 0 hH heq⟩

/-- C4: after every successful operation (trees are mutated only by
successful inserts, starting from a constructor whose `geo::Rect`
bounds are valid), every node whose sub-nodes are present holds exactly
four sub-nodes whose bounds tile the parent's bounds exactly, in the
fixed order [TL, TR, BR, BL] with top-left origin:
TL = [x1,mx]x[y1,my], TR = [mx,x2]x[y1,my], BR = [mx,x2]x[my,y2],
BL = [x1,mx]x[my,y2] with (mx,my) the midpoint of the parent's bounds;
each sub-node has depth = parent depth + 1 and inherits `max_depth` and
`max_children` verbatim — in both tree variants. -/
theorem C4_subdivide_tiling {D : Type} (asPoint : D → QPoint) (bboxOf : D → Option QRect) :
    (∀ t : PTree D, PReach asPoint t → t.root.SubOk) ∧
    (∀ t : BTree D, BReach bboxOf t → t.root.SubOk) :=
  ⟨fun t h => (pReach_subok asPoint t h).2, fun t h => (bReach_subok bboxOf t h).2⟩

unseal Rat.add Rat.mul Rat.sub Rat.inv in
/-- C2 (failing-input evaluation): on a reachable point tree holding
one datum at distance 0 and a comparator at bbox distance 0 from the
root, `knn_r` with `k = 0` and `r = 0` returns a one-element vector:
the loop pushes the first in-radius datum into the results and only
then checks `results.len() >= k`, so the claimed bound `length ≤ k`
fails at `k = 0` (contradicting the function's own doc comment
"Returns a vector with a maximum length of k"). -/
theorem C2_knn_k_zero_returns_one_result :
    (PTree.insert (fun p : QPoint => p) (PTree.new ⟨0, 0, 1, 1⟩ 4 4) ⟨0, 0⟩).2 = none ∧
    pKnn (fun _ : QRect => (0 : ℚ)) (fun _ : QPoint => (0 : ℚ)) c2t.root 0 0 =
      .ok [(⟨0, 0⟩, 0)] ∧
    ¬ ((1 : Nat) ≤ 0) := by
  decide

/-- C7: the `knn` of `src/quadtrees/knn.rs` has no `InvalidDistance`
path at all: its only error exit is the up-front `OutOfBounds` check on
the root bounds distance.  Distances enter the work list as plain
values with no finiteness filtering, and the sort comparator panics
(`expect`) on incomparable values instead of returning an error. -/
theorem C7_knn_never_invalid_distance {N D : Type} (boundsOf : N → QRect)
    (childrenOf : N → List D) (subsOf : N → List N) (dB : QRect → ℚ) (dG : D → ℚ)
    (root : N) (k : Nat) (r : ℚ) (fuel : Nat) (e : Error)
    (h : knn boundsOf childrenOf subsOf dB dG root k r fuel = .error e) :
    e = .OutOfBounds := by
  unfold knn at h
  split at h
  · exact (Except.error.inj h).symm
  · simp at h

/-- Witness for C7 at a concrete out-of-bounds comparator. -/
theorem C7_knn_never_invalid_distance_witness :
    knn (fun _ : Unit => (⟨0, 0, 1, 1⟩ : QRect)) (fun _ : Unit => ([] : List Unit))
      (fun _ : Unit => ([] : List Unit)) (fun _ : QRect => (1 : ℚ)) (fun _ : Unit => (0 : ℚ))
      () 1 0 1 = .error .OutOfBounds ∧
    Error.OutOfBounds = Error.OutOfBounds := by
  have h : knn (fun _ : Unit => (⟨0, 0, 1, 1⟩ : QRect)) (fun _ : Unit => ([] : List Unit))
      (fun _ : Unit => ([] : List Unit)) (fun _ : QRect => (1 : ℚ)) (fun _ : Unit => (0 : ℚ))
      () 1 0 1 = .error .OutOfBounds := by decide
  exact ⟨h, C7_knn_never_invalid_distance (fun _ : Unit => (⟨0, 0, 1, 1⟩ : QRect))
    (fun _ : Unit => ([] : List Unit)) (fun _ : Unit => ([] : List Unit))
    (fun _ : QRect => (1 : ℚ)) (fun _ : Unit => (0 : ℚ)) () 1 0 1 .OutOfBounds h⟩

unseal Rat.add Rat.mul Rat.sub Rat.inv in
/-- Witness for C4: a point tree driven to double subdivision by three
equal in-bounds inserts (`max_children = 2`) is reachable and satisfies
the invariant. -/
theorem C4_subdivide_tiling_witness :
    ValidRect ⟨0, 0, 1, 1⟩ ∧ c4t3.root.SubOk := by
  have hreach : PReach (fun p : QPoint => p) c4t3 :=
    PReach.ins c4t2 c4p
      (PReach.ins c4t1 c4p
        (PReach.ins c4t0 c4p (PReach.new ⟨0, 0, 1, 1⟩ 2 2 (by decide)) (by decide))
        (by decide))
      (by decide)
  exact ⟨by decide,
    (C4_subdivide_tiling (fun p : QPoint => p) (fun _ : QPoint => none)).1 c4t3 hreach⟩

unseal Rat.add Rat.mul Rat.sub Rat.inv in
/-- Witness for C3 at a concrete in-bounds insert on each variant. -/
theorem C3_insert_atomic_witness :
    (pt_in_rect ⟨0, 0, 1, 1⟩ ⟨0, 0⟩ ∧
      ∃ r, PTree.insert (fun p : QPoint => p) (PTree.new ⟨0, 0, 1, 1⟩ 4 4) ⟨0, 0⟩ =
        (⟨r, 1⟩, none) ∧ r.data.Perm [⟨0, 0⟩]) ∧
    (rect_in_rect ⟨0, 0, 8, 8⟩ ⟨1, 1, 2, 2⟩ ∧
      ∃ r, BTree.insert rectBbox (BTree.new ⟨0, 0, 8, 8⟩ 2 2) ⟨1, 1, 2, 2⟩ =
        (⟨r, 1⟩, none) ∧ r.data.Perm [⟨1, 1, 2, 2⟩]) := by
  constructor
  · refine ⟨by decide, ?_⟩
    obtain ⟨r, hr, pr⟩ :=
      ((C3_insert_atomic (fun p : QPoint => p) (fun _ : QPoint => none)).1
        (PTree.new ⟨0, 0, 1, 1⟩ 4 4) ⟨0, 0⟩).1 (by decide)
    exact ⟨r, hr, by simpa [PTree.new, PNode.data] using pr⟩
  · refine ⟨by decide, ?_⟩
    obtain ⟨r, hr, pr⟩ :=
      ((C3_insert_atomic (fun r : QRect => ⟨r.minX, r.minY⟩) rectBbox).2
        (BTree.new ⟨0, 0, 8, 8⟩ 2 2) (⟨1, 1, 2, 2⟩ : QRect)).2.2 ⟨1, 1, 2, 2⟩ rfl (by decide)
        (by intro x hx; simp [BTree.new, BNode.data] at hx)
    exact ⟨r, hr, by simpa [BTree.new, BNode.data] using pr⟩

/-- **C5** (code_bug). The claim: Euclidean rect-rect distance returns the
minimal vertical gap when only the x-extents overlap, and is non-negative in
all cases. Counter-evaluation: for the rectangles `[0,1] × [0,1]` and
`[0,1] × [3,4]` only the x-extents overlap and the minimal vertical gap is
`2`, but `dist_bounds_bounds` returns `min (0 - 4) (3 - 1) = -4`: the
`(true, false)` branch takes the `min` of the two *signed* differences, so
it returns the negated larger gap instead of the positive smaller gap, a
negative result. -/
theorem C5_euclidean_rect_rect_negative :
    dist_bounds_bounds c5b1 c5b2 = -4 ∧
    ¬ (0 : ℝ) ≤ dist_bounds_bounds c5b1 c5b2 ∧
    c5b2.y_min - c5b1.y_max = 2 ∧
    dist_bounds_bounds c5b1 c5b2 ≠ c5b2.y_min - c5b1.y_max := by
  have h : dist_bounds_bounds c5b1 c5b2 = -4 := by
    unfold dist_bounds_bounds c5b1 c5b2
    norm_num [EBounds.x_min, EBounds.x_max, EBounds.y_min, EBounds.y_max, min_def]
  refine ⟨h, by rw [h]; norm_num, by norm_num [c5b1, c5b2, EBounds.y_min, EBounds.y_max], ?_⟩
  rw [h]
  norm_num [c5b1, c5b2, EBounds.y_min, EBounds.y_max]

/-- **C6** (code_bug). The claim: spherical point-rect distance returns zero
whenever the point lies inside the rect or on its boundary. Counter-evaluation:
the corner `(0,0)` lies on the boundary of the rect `[0,1] × [0,1]`, yet
`dist_pt_rect` returns the haversine distance `1` to the projected point
`(0,1)` on the top edge, not `0`: the code gates the zero early-return on
`geo`'s strict DE-9IM `Rect::contains`, which rejects boundary points. -/
theorem C6_spherical_pt_rect_boundary_nonzero :
    (c6rect.minX ≤ c6pt.1 ∧ c6pt.1 ≤ c6rect.maxX ∧
      c6rect.minY ≤ c6pt.2 ∧ c6pt.2 ≤ c6rect.maxY) ∧
    dist_pt_rect c6pt c6rect = 1 ∧
    dist_pt_rect c6pt c6rect ≠ 0 := by
  have hs : (0 : ℝ) ≤ Real.sin (1 / 2) :=
    Real.sin_nonneg_of_nonneg_of_le_pi (by norm_num) (by linarith [Real.pi_gt_three])
  have hsq : Real.sqrt (Real.sin (1 / 2) ^ 2) = Real.sin (1 / 2) := Real.sqrt_sq hs
  have harc : Real.arcsin (Real.sin (1 / 2)) = 1 / 2 := by
    refine Real.arcsin_sin (by linarith [Real.pi_gt_three]) (by linarith [Real.pi_gt_three])
  have hval : dist_pt_rect c6pt c6rect = 1 := by
    norm_num [dist_pt_rect, sRectContains, c6pt, c6rect, sphDist_pt_line, sphDist_pt_pt,
      Real.sin_zero, Real.cos_zero]
    rw [hsq, harc]
    norm_num
  exact ⟨by norm_num [c6pt, c6rect], hval, by rw [hval]; norm_num⟩

end Quadtree
